import Mathlib

/-!
Verification of the versioned in-memory catalog core (`pkg/infoschema/infoschema_v2.go`).

The Go data structures are shallowly embedded:
* each `btree.BTreeG` is a Lean `List` kept sorted (strictly ascending) by the
  corresponding comparison function; `Set` is insert-or-replace, `Descend pivot`
  visits the items `≤ pivot` in descending order, `Reverse` visits all items in
  descending order;
* `int64` values are Lean `Int` (versions stay far from overflow; the only place
  the binary representation matters is the system-schema bit test, which uses
  `Int.land` exactly like the Go `&`);
* `uint64` timestamps are Lean `Nat`;
* the sieve cache is embedded as an association list of entries with a visited
  bit (its eviction sweep is not modelled: none of the verified operations

  depend on capacity);
* effectful lookups thread the mutated state explicitly and additionally
  record a trace of cache probes / index searches / remote loads.
-/

namespace InfoschemaV2

/-- `math.MaxInt64`, the descending-seed schema version used by the lookups. -/
def maxInt64 : Int := 9223372036854775807

/-- `tableItem`: the btree item of the two table indices. -/
structure TableItem where
  dbName : String
  dbID : Int
  tableName : String
  tableID : Int
  schemaVersion : Int
  tomb : Bool
deriving Repr, DecidableEq

/-- `partitionItem`: the btree item of the `pid2tid` index. -/
structure PartitionItem where
  partitionID : Int
  schemaVersion : Int
  tableID : Int
  tomb : Bool
deriving Repr, DecidableEq

/-- One partition definition of a partitioned table (`model.PartitionDefinition`):
only the id and the placement-policy reference are relevant here. -/
structure PartitionDefM where
  id : Int
  placementPolicyRef : Bool
deriving Repr, DecidableEq

/-- `model.CIStr`: original and lowercased spelling of an identifier. -/
structure CIStr where
  o : String
  l : String
deriving Repr, DecidableEq

/-- The slice of `model.TableInfo` consulted by this file: identity plus the
fields read by the special-attribute filters. -/
structure TableInfoM where
  id : Int
  dbID : Int
  name : CIStr
  statePublic : Bool
  ttlInfo : Bool
  tiflashReplica : Bool
  placementPolicyRef : Bool
  partitionInfo : Option (List PartitionDefM)
deriving Repr, DecidableEq

/-- `tableInfoItem`: the btree item of the resident attribute index.  The
descriptor is `none` exactly on tomb records (`Data.remove` stores `nil`). -/
structure TableInfoItem where
  dbName : String
  tableID : Int
  schemaVersion : Int
  tableInfo : Option TableInfoM
  tomb : Bool
deriving Repr, DecidableEq

/-- The slice of `model.DBInfo` consulted by this file. -/
structure DBInfoM where
  id : Int
  name : CIStr
deriving Repr, DecidableEq

/-- `schemaItem`: the btree item of the name-keyed schema index. -/
structure SchemaItem where
  schemaVersion : Int
  dbInfo : DBInfoM
  tomb : Bool
deriving Repr, DecidableEq

/-- `schemaIDName`: the btree item of the id-keyed schema index. -/
structure SchemaIDName where
  schemaVersion : Int
  id : Int
  name : String
  tomb : Bool
deriving Repr, DecidableEq

/-- `versionAndTimestamp`: one record of the version-timestamp log. -/
structure VersionAndTimestamp where
  schemaVersion : Int
  timestamp : Nat
deriving Repr, DecidableEq

/-- `schemaItem.Name()`. -/
def SchemaItem.nameL (si : SchemaItem) : String := si.dbInfo.name.l

/-- `tableCacheKey`. -/
structure TableCacheKey where
  tableID : Int
  schemaVersion : Int
deriving Repr, DecidableEq

/-! ### Comparison functions (`compareByID` … `compareSchemaByID`) -/

/-- Go's `<` on strings (byte-wise lexicographic; all identifiers here are
ASCII), computed on the character data so that the kernel can evaluate it. -/
def strLt (a b : String) : Bool := decide (a.data < b.data)

/-- `compareByID`: `tableID` ascending, ties broken by `schemaVersion`. -/
def compareByID (a b : TableItem) : Bool :=
  if a.tableID < b.tableID then true
  else if a.tableID > b.tableID then false
  else a.schemaVersion < b.schemaVersion

/-- `compareByName`: `dbName`, `tableName`, `schemaVersion`, all ascending. -/
def compareByName (a b : TableItem) : Bool :=
  if strLt a.dbName b.dbName then true
  else if strLt b.dbName a.dbName then false
  else if strLt a.tableName b.tableName then true
  else if strLt b.tableName a.tableName then false
  else a.schemaVersion < b.schemaVersion

/-- `compareTableInfoItem`: `dbName`, `tableID`, `schemaVersion`. -/
def compareTableInfoItem (a b : TableInfoItem) : Bool :=
  if strLt a.dbName b.dbName then true
  else if strLt b.dbName a.dbName then false
  else if a.tableID < b.tableID then true
  else if a.tableID > b.tableID then false
  else a.schemaVersion < b.schemaVersion

/-- `comparePartitionItem`: `partitionID`, `schemaVersion`. -/
def comparePartitionItem (a b : PartitionItem) : Bool :=
  if a.partitionID < b.partitionID then true
  else if a.partitionID > b.partitionID then false
  else a.schemaVersion < b.schemaVersion

/-- `compareSchemaItem`: lowercase DB name, `schemaVersion`. -/
def compareSchemaItem (a b : SchemaItem) : Bool :=
  if strLt a.nameL b.nameL then true
  else if strLt b.nameL a.nameL then false
  else a.schemaVersion < b.schemaVersion

/-- `compareSchemaByID`: `id`, `schemaVersion`. -/
def compareSchemaByID (a b : SchemaIDName) : Bool :=
  if a.id < b.id then true
  else if a.id > b.id then false
  else a.schemaVersion < b.schemaVersion

/-! ### The ordered-index model

`btreeSet` inserts an element into a sorted list, replacing the (unique)
element that compares equal to it, exactly like `BTreeG.Set`.  `btreeDescend`
produces the list of items visited by `BTreeG.Descend(pivot, …)`: all items
`≤ pivot`, largest first. -/

/-- `BTreeG.Set`: insert-or-replace with respect to the tree's ordering. -/
def btreeSet (cmp : α → α → Bool) (x : α) : List α → List α
  | [] => [x]
  | y :: ys =>
    if cmp x y then x :: y :: ys
    else if cmp y x then y :: btreeSet cmp x ys
    else x :: ys

/-- The items visited by `BTreeG.Descend(pivot, …)`, in visit order. -/
def btreeDescend (cmp : α → α → Bool) (pivot : α) (l : List α) : List α :=
  (l.filter (fun y => !cmp pivot y)).reverse

/-! ### `search`: the generalised versioned lookup -/

/-- The loop body of `search`: walk the descending item list, stop at the
first item rejected by `matchFn`, skip items newer than `schemaVersion`, and
keep the matching item with the largest schema version seen so far. -/
def searchVisit (schemaVersion : Int) (end_ : TableItem)
    (matchFn : TableItem → TableItem → Bool) :
    List TableItem → Option TableItem → Option TableItem
  | [], acc => acc
  | item :: rest, acc =>
    if !matchFn end_ item then acc
    else if item.schemaVersion > schemaVersion then
      searchVisit schemaVersion end_ matchFn rest acc
    else
      match acc with
      | none => searchVisit schemaVersion end_ matchFn rest (some item)
      | some target =>
        if item.schemaVersion > target.schemaVersion then
          searchVisit schemaVersion end_ matchFn rest (some item)
        else
          searchVisit schemaVersion end_ matchFn rest (some target)

/-- `search`: descend from `end_`, find the matching item with the largest
schema version `≤ schemaVersion`; a tomb means the table is dropped. -/
def search (cmp : TableItem → TableItem → Bool) (bt : List TableItem)
    (schemaVersion : Int) (end_ : TableItem)
    (matchFn : TableItem → TableItem → Bool) : Option TableItem :=
  match searchVisit schemaVersion end_ matchFn (btreeDescend cmp end_ bt) none with
  | none => none
  | some target => if target.tomb then none else some target

/-! ### The sieve cache

Modelled from the spec (§4.2): the cache (implemented in a sibling file that is
not part of this source) maps `(tableID, schemaVersion)` to a table handle;
`Get` returns the current value and marks the entry visited, `Set` inserts or
replaces, `Remove` deletes unconditionally.  The byte-capacity bound and the
second-chance eviction sweep are not modelled: none of the verified operations
depend on them. -/

/-- One cache slot: key, handle and the second-chance visited bit. -/
structure SieveEntry where
  key : TableCacheKey
  value : TableInfoM
  visited : Bool
deriving Repr, DecidableEq

/-- The pure key-to-value view of the cache. -/
def sieveLookup (c : List SieveEntry) (k : TableCacheKey) : Option TableInfoM :=
  (c.find? (fun e => e.key == k)).map (·.value)

/-- `Get`: the current value, plus the cache with the entry marked visited. -/
def sieveGet (c : List SieveEntry) (k : TableCacheKey) :
    Option TableInfoM × List SieveEntry :=
  (sieveLookup c k,
   c.map (fun e => if e.key == k then { e with visited := true } else e))

/-- `Set`: insert or replace the value stored under `k`. -/
def sieveSet (c : List SieveEntry) (k : TableCacheKey) (v : TableInfoM) :
    List SieveEntry :=
  if c.any (fun e => e.key == k) then
    c.map (fun e => if e.key == k then { e with value := v } else e)
  else
    c ++ [⟨k, v, false⟩]

/-- `Remove`: delete unconditionally. -/
def sieveRemove (c : List SieveEntry) (k : TableCacheKey) : List SieveEntry :=
  c.filter (fun e => !(e.key == k))

/-! ### Special-attribute filters -/

/-- `TTLAttribute`. -/
def TTLAttribute (t : TableInfoM) : Bool := t.statePublic && t.ttlInfo

/-- `TiFlashAttribute`. -/
def TiFlashAttribute (t : TableInfoM) : Bool := t.tiflashReplica

/-- `PlacementPolicyAttribute`. -/
def PlacementPolicyAttribute (t : TableInfoM) : Bool :=
  if t.placementPolicyRef then true
  else
    match t.partitionInfo with
    | some defs => defs.any (·.placementPolicyRef)
    | none => false

/-- `PartitionAttribute`. -/
def PartitionAttribute (t : TableInfoM) : Bool := t.partitionInfo.isSome

/-- `hasSpecialAttributes`. -/
def hasSpecialAttributes (t : TableInfoM) : Bool :=
  TTLAttribute t || TiFlashAttribute t || PlacementPolicyAttribute t ||
    PartitionAttribute t

/-- `AllSpecialAttribute`. -/
def AllSpecialAttribute : TableInfoM → Bool := hasSpecialAttributes

/-! ### The catalog store `Data` -/

/-- The pre-built bundle registered for a special database (`schemaTables`):
its `DBInfo` plus the name-keyed table handles. -/
structure SchemaTablesM where
  dbInfo : DBInfoM
  tables : List (String × TableInfoM)
deriving Repr, DecidableEq

/-- `Data`, the core data struct of infoschema V2.  Every btree is a sorted
list; `specials` (a `sync.Map`) is an association list. -/
structure Data where
  byName : List TableItem
  byID : List TableItem
  schemaMap : List SchemaItem
  schemaID2Name : List SchemaIDName
  tableCache : List SieveEntry
  versionTimestamps : List VersionAndTimestamp
  specials : List (String × SchemaTablesM)
  pid2tid : List PartitionItem
  tableInfoResident : List TableInfoItem
deriving Repr, DecidableEq

/-- `NewData`: all indices empty. -/
def NewData : Data := ⟨[], [], [], [], [], [], [], [], []⟩

/-- `Data.add`: write both table indices, install the handle in the cache,
write one partition entry per partition definition, and write the resident
attribute entry iff the descriptor has special attributes.  The handle's
`Meta()` is the descriptor itself in this model. -/
def Data.add (isd : Data) (item : TableItem) (tbl : TableInfoM) : Data :=
  let isd := { isd with byID := btreeSet compareByID item isd.byID }
  let isd := { isd with byName := btreeSet compareByName item isd.byName }
  let cache := sieveSet isd.tableCache ⟨item.tableID, item.schemaVersion⟩ tbl
  let isd := { isd with tableCache := cache }
  let ti := tbl
  let isd :=
    match ti.partitionInfo with
    | none => isd
    | some defs =>
      let parts := defs.foldl
        (fun acc d => btreeSet comparePartitionItem
          ⟨d.id, item.schemaVersion, ti.id, false⟩ acc) isd.pid2tid
      { isd with pid2tid := parts }
  if hasSpecialAttributes ti then
    let resident := btreeSet compareTableInfoItem
      ⟨item.dbName, item.tableID, item.schemaVersion, some ti, false⟩
      isd.tableInfoResident
    { isd with tableInfoResident := resident }
  else isd

/-- `Data.remove`: write `tomb = true` entries to both table indices and the
resident attribute index (with a `nil` descriptor), and delete the cache slot
`(tableID, schemaVersion)`.  The partition index is not touched. -/
def Data.remove (isd : Data) (item₀ : TableItem) : Data :=
  let item := { item₀ with tomb := true }
  let isd := { isd with byID := btreeSet compareByID item isd.byID }
  let isd := { isd with byName := btreeSet compareByName item isd.byName }
  let resident := btreeSet compareTableInfoItem
    ⟨item.dbName, item.tableID, item.schemaVersion, none, true⟩
    isd.tableInfoResident
  let isd := { isd with tableInfoResident := resident }
  let cache := sieveRemove isd.tableCache ⟨item.tableID, item.schemaVersion⟩
  { isd with tableCache := cache }

/-- `Data.addDB`: write both schema indices.  (The Go code first clears
`dbInfo.Tables`; the table list is not part of the embedded `DBInfoM`.) -/
def Data.addDB (isd : Data) (schemaVersion : Int) (dbInfo : DBInfoM) : Data :=
  let byIDIdx := btreeSet compareSchemaByID
    ⟨schemaVersion, dbInfo.id, dbInfo.name.o, false⟩ isd.schemaID2Name
  let isd := { isd with schemaID2Name := byIDIdx }
  let byNameIdx := btreeSet compareSchemaItem
    ⟨schemaVersion, dbInfo, false⟩ isd.schemaMap
  { isd with schemaMap := byNameIdx }

/-- `Data.deleteDB`: write tomb entries to both schema indices. -/
def Data.deleteDB (isd : Data) (dbInfo : DBInfoM) (schemaVersion : Int) : Data :=
  let byNameIdx := btreeSet compareSchemaItem
    ⟨schemaVersion, dbInfo, true⟩ isd.schemaMap
  let isd := { isd with schemaMap := byNameIdx }
  let byIDIdx := btreeSet compareSchemaByID
    ⟨schemaVersion, dbInfo.id, dbInfo.name.o, true⟩ isd.schemaID2Name
  { isd with schemaID2Name := byIDIdx }

/-! ### `getVersionByTS` -/

/-- The loop of `getVersionByTSNoLock` from the second element on: `prev` is
the immediately preceding log record (`versionTimestamps[i-1]`). -/
def getVersionGo (ts : Nat) (prev : VersionAndTimestamp) :
    List VersionAndTimestamp → Int × Bool
  | [] => (0, false)
  | vt :: rest =>
    if vt.timestamp == 0 || ts < vt.timestamp then getVersionGo ts vt rest
    else if prev.schemaVersion == vt.schemaVersion + 1 && prev.timestamp > ts then
      (vt.schemaVersion, true)
    else (0, false)

/-- `getVersionByTSNoLock` on a version-timestamp log: linear scan from the
most recent record; skip zero timestamps and records newer than `ts`; the
first usable record wins if it is the newest one or if the preceding record
is the directly succeeding schema version with a timestamp above `ts`. -/
def getVersionByTS (vts : List VersionAndTimestamp) (ts : Nat) : Int × Bool :=
  match vts with
  | [] => (0, false)
  | vt :: rest =>
    if vt.timestamp == 0 || ts < vt.timestamp then getVersionGo ts vt rest
    else (vt.schemaVersion, true)

/-- `Data.getVersionByTSNoLock`. -/
def Data.getVersionByTSNoLock (isd : Data) (ts : Nat) : Int × Bool :=
  getVersionByTS isd.versionTimestamps ts

/-! ### The snapshot-view lookups -/

/-- Modelled from the spec: `tableIDIsValid` is the table-id validity guard
(defined in a sibling file of the package); an id is valid iff it is nonzero. -/
def tableIDIsValid (tableID : Int) : Bool := tableID != 0

/-- Modelled from the spec: `autoid.SystemSchemaIDFlag`, the system-schema bit
carried by ids of virtual tables (bit 62, defined in the autoid package). -/
def SystemSchemaIDFlag : Int := 4611686018427387904

/-- `isTableVirtual`: the id carries the system-schema bit. -/
def isTableVirtual (id : Int) : Bool := Int.land id SystemSchemaIDFlag > 0

/-- `IsSpecialDB`.  The three registry names come from the util package; the
spec names them the information/performance/metric schemas. -/
def IsSpecialDB (dbName : String) : Bool :=
  dbName == "information_schema" || dbName == "performance_schema" ||
    dbName == "metrics_schema"

/-- `model.NewCIStr`: keep the original spelling and lowercase it
(`strings.ToLower`, applied character-wise on the data). -/
def newCIStr (s : String) : CIStr := ⟨s, ⟨s.data.map Char.toLower⟩⟩

/-- Association-list lookup used for `specials` (`sync.Map.Load`). -/
def lookupStr (l : List (String × α)) (k : String) : Option α :=
  (l.find? (fun p => p.1 == k)).map (·.2)

/-- The metadata KV consumed by `loadTableInfo`:
`GetTable(dbID, tblID)` over the snapshot at a timestamp. -/
def KVStore : Type := Nat → Int → Int → Option TableInfoM

/-- `loadTableInfo`: fetch the descriptor from the metadata snapshot at `ts`;
a missing descriptor is the `ErrTableNotExists` failure (`none`).  The
single-flight coalescing, flashback retry sleep, charset normalisation and
allocator construction are process/IO concerns with no effect on the resulting
descriptor, so the model returns the fetched descriptor itself as the handle
(`TableFromMeta` keeps the descriptor as `Meta()`). -/
def loadTableInfo (kv : KVStore) (tblID dbID : Int) (ts : Nat)
    (_schemaVersion : Int) : Option TableInfoM :=
  kv ts dbID tblID

/-- The observable side effects of a lookup, in program order: cache probes,
index searches, cache refills and remote loads. -/
inductive Effect where
  | cacheGet (key : TableCacheKey)
  | cacheSet (key : TableCacheKey)
  | searchIndex
  | load (dbID tblID : Int)
deriving Repr, DecidableEq

/-- The `eq` predicate of `tableByID`. -/
def eqByTableID (a b : TableItem) : Bool := a.tableID == b.tableID

/-- The `eq` predicate of `TableByName` / `EvictTable`. -/
def eqByDBAndTableName (a b : TableItem) : Bool :=
  a.dbName == b.dbName && a.tableName == b.tableName

/-- `infoschemaV2.tableByID(id, noRefill)` for a snapshot pinned at
`(smv, ts)`: validity guard, cache fast path at `(id, smv)`, versioned search
of the by-id index, the special-registry path for virtual ids, the old-key
cache path at `(id, itm.schemaVersion)`, and finally the remote load.
Returns the handle, the updated store and the effect trace. -/
def tableByID (d : Data) (smv : Int) (ts : Nat) (kv : KVStore) (id : Int)
    (noRefill : Bool) : Option TableInfoM × Data × List Effect :=
  if !tableIDIsValid id then (none, d, [])
  else
    let key : TableCacheKey := ⟨id, smv⟩
    let got := sieveGet d.tableCache key
    let d₁ := { d with tableCache := got.2 }
    match got.1 with
    | some tbl => (some tbl, d₁, [Effect.cacheGet key])
    | none =>
      match search compareByID d₁.byID smv ⟨"", 0, "", id, maxInt64, false⟩
          eqByTableID with
      | none => (none, d₁, [Effect.cacheGet key, Effect.searchIndex])
      | some itm =>
        if isTableVirtual id then
          match lookupStr d₁.specials itm.dbName with
          | some schTbls =>
            (lookupStr schTbls.tables itm.tableName, d₁,
             [Effect.cacheGet key, Effect.searchIndex])
          | none => (none, d₁, [Effect.cacheGet key, Effect.searchIndex])
        else
          let oldKey : TableCacheKey := ⟨itm.tableID, itm.schemaVersion⟩
          let got₂ := sieveGet d₁.tableCache oldKey
          let d₂ := { d₁ with tableCache := got₂.2 }
          match got₂.1 with
          | some tbl =>
            if noRefill then
              (some tbl, d₂,
               [Effect.cacheGet key, Effect.searchIndex, Effect.cacheGet oldKey])
            else
              (some tbl, { d₂ with tableCache := sieveSet d₂.tableCache key tbl },
               [Effect.cacheGet key, Effect.searchIndex, Effect.cacheGet oldKey,
                Effect.cacheSet key])
          | none =>
            match loadTableInfo kv id itm.dbID ts smv with
            | none =>
              (none, d₂,
               [Effect.cacheGet key, Effect.searchIndex, Effect.cacheGet oldKey,
                Effect.load itm.dbID id])
            | some ret =>
              if noRefill then
                (some ret, d₂,
                 [Effect.cacheGet key, Effect.searchIndex,
                  Effect.cacheGet oldKey, Effect.load itm.dbID id])
              else
                (some ret,
                 { d₂ with tableCache := sieveSet d₂.tableCache oldKey ret },
                 [Effect.cacheGet key, Effect.searchIndex,
                  Effect.cacheGet oldKey, Effect.load itm.dbID id,
                  Effect.cacheSet oldKey])

/-- `infoschemaV2.TableByID`. -/
def TableByID (d : Data) (smv : Int) (ts : Nat) (kv : KVStore) (id : Int) :
    Option TableInfoM × Data × List Effect :=
  tableByID d smv ts kv id false

/-- `infoschemaV2.TableByName` for a snapshot pinned at `(smv, ts)`:
special-DB registry short-circuit, versioned search of the by-name index,
old-key cache probe, remote load and cache refill.  A `nil, err` return is
`none`.  (The latency metrics are not modelled.) -/
def TableByName (d : Data) (smv : Int) (ts : Nat) (kv : KVStore)
    (schema tbl : CIStr) : Option TableInfoM × Data × List Effect :=
  if IsSpecialDB schema.l then
    match lookupStr d.specials schema.l with
    | some tbNames =>
      match lookupStr tbNames.tables tbl.l with
      | some t => (some t, d, [])
      | none => (none, d, [])
    | none => (none, d, [])
  else
    match search compareByName d.byName smv
        ⟨schema.l, 0, tbl.l, 0, maxInt64, false⟩ eqByDBAndTableName with
    | none => (none, d, [Effect.searchIndex])
    | some itm =>
      let oldKey : TableCacheKey := ⟨itm.tableID, itm.schemaVersion⟩
      let got := sieveGet d.tableCache oldKey
      let d₁ := { d with tableCache := got.2 }
      match got.1 with
      | some res =>
        (some res, d₁, [Effect.searchIndex, Effect.cacheGet oldKey])
      | none =>
        match loadTableInfo kv itm.tableID itm.dbID ts smv with
        | none =>
          (none, d₁,
           [Effect.searchIndex, Effect.cacheGet oldKey,
            Effect.load itm.dbID itm.tableID])
        | some ret =>
          (some ret, { d₁ with tableCache := sieveSet d₁.tableCache oldKey ret },
           [Effect.searchIndex, Effect.cacheGet oldKey,
            Effect.load itm.dbID itm.tableID, Effect.cacheSet oldKey])

/-- The loop body of `SchemaByName`'s descending walk: stop on a name change,
and at the first record with version `≤ smv` report it (absent on tomb). -/
def schemaByNameVisit (smv : Int) (schemaL : String) :
    List SchemaItem → Option DBInfoM
  | [] => none
  | item :: rest =>
    if item.nameL != schemaL then none
    else if item.schemaVersion ≤ smv then
      if !item.tomb then some item.dbInfo else none
    else schemaByNameVisit smv schemaL rest

/-- `infoschemaV2.SchemaByName`: registry short-circuit for special DBs, then
a descending scan of `schemaMap` seeded at `(name, MaxInt64)`. -/
def SchemaByName (d : Data) (smv : Int) (schema : CIStr) : Option DBInfoM :=
  if IsSpecialDB schema.l then
    match lookupStr d.specials schema.l with
    | some schTbls => some schTbls.dbInfo
    | none => none
  else
    schemaByNameVisit smv schema.l
      (btreeDescend compareSchemaItem ⟨maxInt64, ⟨0, schema⟩, false⟩ d.schemaMap)

/-- The loop body of `SchemaByID`'s descending walk over `schemaID2Name`. -/
def schemaByIDVisit (smv : Int) (id : Int) :
    List SchemaIDName → Option String
  | [] => none
  | item :: rest =>
    if item.id != id then none
    else if item.schemaVersion ≤ smv then
      if !item.tomb then some item.name else none
    else schemaByIDVisit smv id rest

/-- `infoschemaV2.SchemaByID`: virtual ids are scanned in the registry;
otherwise the id index yields a name that is fed to `SchemaByName`. -/
def SchemaByID (d : Data) (smv : Int) (id : Int) : Option DBInfoM :=
  if isTableVirtual id then
    match d.specials.find? (fun p => p.2.dbInfo.id == id) with
    | some p => some p.2.dbInfo
    | none => none
  else
    match schemaByIDVisit smv id
        (btreeDescend compareSchemaByID ⟨maxInt64, id, "", false⟩
          d.schemaID2Name) with
    | none => none
    | some name => SchemaByName d smv (newCIStr name)

/-! ### The diff applier (the parts exercised by the claims) -/

/-- The error kinds surfaced by the applier paths modelled here. -/
inductive GoErr where
  | databaseExists (id : Int)
  | databaseNotExists (id : Int)
  | metaErr
deriving Repr, DecidableEq

/-- `Builder.applyDropTableV2`'s effect on the catalog store: look up the
table handle, write one tomb partition entry per partition definition at the
diff's version, then `Data.remove` the table entry at that version.  (The
temporary-table bookkeeping and foreign-key back-pointer purge act on the
legacy `infoSchema` part of the builder, not on `Data`.) -/
def applyDropTableV2 (d : Data) (smv : Int) (ts : Nat) (kv : KVStore)
    (diffVersion : Int) (dbInfo : DBInfoM) (tableID : Int) : Data :=
  match tableByID d smv ts kv tableID false with
  | (none, d₁, _) => d₁
  | (some tbl, d₁, _) =>
    let d₂ :=
      match tbl.partitionInfo with
      | none => d₁
      | some defs =>
        let parts := defs.foldl
          (fun acc (df : PartitionDefM) => btreeSet comparePartitionItem
            ⟨df.id, diffVersion, tbl.id, true⟩ acc) d₁.pid2tid
        { d₁ with pid2tid := parts }
    d₂.remove ⟨dbInfo.name.l, dbInfo.id, tbl.name.l, tbl.id, diffVersion, false⟩

/-- `Builder.applyRecoverSchemaV2`: if the target database is still visible,
fail with `ErrDatabaseExists`; otherwise fetch its `DBInfo` from the metadata
KV, `addDB` it at the diff's version and create the tables.
`applyCreateTables` lives in the builder outside this source file, so it is a
parameter; `getDatabase` is the metadata KV's `GetDatabase`. -/
def applyRecoverSchemaV2 (d : Data) (smv : Int)
    (getDatabase : Int → Except GoErr DBInfoM)
    (createTables : Data → Except GoErr (List Int) × Data)
    (diffSchemaID diffVersion : Int) : Except GoErr (List Int) × Data :=
  match SchemaByID d smv diffSchemaID with
  | some di => (Except.error (GoErr.databaseExists di.id), d)
  | none =>
    match getDatabase diffSchemaID with
    | Except.error e => (Except.error e, d)
    | Except.ok di => createTables (d.addDB diffVersion di)

/-! ### `ListTablesWithSpecialAttribute` -/

/-- `tableInfoResult` (declared in a sibling file of the package): one per-DB
bucket of the result. -/
structure TableInfoResult where
  dbName : String
  tableInfos : List TableInfoM
deriving Repr, DecidableEq

/-- The visitor state of `ListTablesWithSpecialAttribute`. -/
structure ListTablesState where
  ret : List TableInfoResult
  currDB : String
  lastTableID : Int
  res : TableInfoResult
deriving Repr, DecidableEq

/-- The loop body of `ListTablesWithSpecialAttribute`'s reverse traversal:
skip items newer than the snapshot, dedup consecutive runs of one `tableID`
(first seen wins), skip tombs and filter rejects, and bucket by `dbName`. -/
def listTablesVisit (smv : Int) (filter : TableInfoM → Bool)
    (st : ListTablesState) (item : TableInfoItem) : ListTablesState :=
  if item.schemaVersion > smv then st
  else if st.lastTableID != 0 && st.lastTableID == item.tableID then st
  else
    let st := { st with lastTableID := item.tableID }
    if item.tomb then st
    else
      match item.tableInfo with
      | none => st
      | some ti =>
        if !filter ti then st
        else
          if st.currDB == "" then
            { st with currDB := item.dbName, res := ⟨item.dbName, [ti]⟩ }
          else if st.currDB == item.dbName then
            { st with res := ⟨st.res.dbName, st.res.tableInfos ++ [ti]⟩ }
          else
            { st with ret := st.ret ++ [st.res], res := ⟨item.dbName, [ti]⟩ }

/-- `infoschemaV2.ListTablesWithSpecialAttribute`: full reverse traversal of
the resident attribute index, then flush the last bucket if it is nonempty. -/
def ListTablesWithSpecialAttribute (d : Data) (smv : Int)
    (filter : TableInfoM → Bool) : List TableInfoResult :=
  let st := d.tableInfoResident.reverse.foldl (listTablesVisit smv filter)
    ⟨[], "", 0, ⟨"", []⟩⟩
  if st.res.tableInfos.length > 0 then st.ret ++ [st.res] else st.ret

/-! ### Reference definitions and operation sequences used by the theorems -/

/-- The versioned lookup stated by the spec's words: among all entries that
match the predicate and have `schemaVersion ≤ V`, take the one with the
largest schema version (under a sorted index this is the last such entry);
report absent if it is a tomb, otherwise present with that entry. -/
def specLookup (schemaVersion : Int) (p : TableItem → Bool)
    (bt : List TableItem) : Option TableItem :=
  match (bt.filter
      (fun x => p x && decide (x.schemaVersion ≤ schemaVersion))).getLast? with
  | none => none
  | some target => if target.tomb then none else some target

/-- A catalog mutation: `Data.add` or `Data.remove`. -/
inductive CatalogOp where
  | addOp (item : TableItem) (tbl : TableInfoM)
  | removeOp (item : TableItem)
deriving Repr, DecidableEq

/-- The table entry an operation is about. -/
def CatalogOp.item : CatalogOp → TableItem
  | .addOp i _ => i
  | .removeOp i => i

/-- Apply a sequence of catalog mutations to a store. -/
def applyOps : Data → List CatalogOp → Data
  | d, [] => d
  | d, .addOp i t :: rest => applyOps (d.add i t) rest
  | d, .removeOp i :: rest => applyOps (d.remove i) rest

/-- Comparison by schema version alone: the ordering that the table
comparators induce inside one key group. -/
def versionCmp (a b : TableItem) : Bool := a.schemaVersion < b.schemaVersion

/-! ### Concrete states used by witnesses and counterexamples -/

/-- A by-id seed item for table id 7. -/
def exSeed7 : TableItem := ⟨"", 0, "", 7, maxInt64, false⟩

/-- A small by-id index: table 7 added at version 5 and tombed at version 8,
and an unrelated table 9. -/
def exByID : List TableItem :=
  [⟨"da", 1, "t1", 7, 5, false⟩, ⟨"da", 1, "t1", 7, 8, true⟩,
   ⟨"da", 1, "t2", 9, 2, false⟩]

/-- An example database descriptor. -/
def exDB : DBInfoM := ⟨3, ⟨"X", "x"⟩⟩

/-- A store in which `exDB` is visible from version 1 on. -/
def exDataWithDB : Data := NewData.addDB 1 exDB

/-- A metadata KV in which only database 3 exists. -/
def exGetDatabase : Int → Except GoErr DBInfoM :=
  fun i => if i == 3 then Except.ok exDB else Except.error GoErr.metaErr

/-- A trivial table-creation continuation for the recover-schema applier. -/
def exCreateTables : Data → Except GoErr (List Int) × Data :=
  fun d => (Except.ok [], d)

/-- An example partitioned TTL table handle (table 11, partitions 100/200). -/
def exPartTbl : TableInfoM :=
  ⟨11, 3, ⟨"pt", "pt"⟩, true, true, false, false,
   some [⟨100, false⟩, ⟨200, false⟩]⟩

/-- A store holding the partitioned table 11 added at version 4. -/
def exDataWithPart : Data :=
  NewData.add ⟨"x", 3, "pt", 11, 4, false⟩ exPartTbl

/-- A metadata KV with no tables. -/
def exEmptyKV : KVStore := fun _ _ _ => none

/-- A TTL table descriptor (table 5). -/
def exTTLTbl : TableInfoM := ⟨5, 1, ⟨"t", "t"⟩, true, true, false, false, none⟩

/-- The attribute index after TTL table 5, added in database `dbb` at
version 7, is renamed into database `dba` at version 9 (the applier performs
rename across databases as drop-in-old plus create-in-new at one version):
the live `dba` entry, the old live `dbb` entry, and the `dbb` tomb. -/
def exRenameResident : List TableInfoItem :=
  [⟨"dba", 5, 9, some exTTLTbl, false⟩,
   ⟨"dbb", 5, 7, some exTTLTbl, false⟩,
   ⟨"dbb", 5, 9, none, true⟩]

/-- The catalog store holding `exRenameResident`. -/
def exRenameData : Data :=
  { NewData with tableInfoResident := exRenameResident }

/-- A version-timestamp log that is not sorted by schema version. -/
def exUnsortedLog : List VersionAndTimestamp := [⟨1, 100⟩, ⟨9, 80⟩, ⟨8, 50⟩]

/-- A well-formed version-timestamp log (strictly decreasing versions,
decreasing timestamps). -/
def exSortedLog : List VersionAndTimestamp := [⟨10, 100⟩, ⟨9, 50⟩, ⟨8, 30⟩]

/-- Table 7 (`da`.`ta`) at its creation version 1. -/
def exC1Item1 : TableItem := ⟨"da", 1, "ta", 7, 1, false⟩

/-- The descriptor of table 7 (public, no special attributes, no
partitions). -/
def exC1Tbl : TableInfoM := ⟨7, 1, ⟨"ta", "ta"⟩, true, false, false, false, none⟩

/-- A store holding table 7 added at version 1. -/
def exC1Data : Data := NewData.add exC1Item1 exC1Tbl

/-- The entry describing table 7 at version 2, as handed to `Data.remove` by
the drop applier. -/
def exC1Item : TableItem := ⟨"da", 1, "ta", 7, 2, false⟩

/-- A second table with the same qualified name `da`.`ta` but a different
table id 8, added at version 2. -/
def exC2Item8 : TableItem := ⟨"da", 1, "ta", 8, 2, false⟩

/-- The descriptor of table 8. -/
def exC2Tbl8 : TableInfoM := ⟨8, 1, ⟨"ta", "ta"⟩, true, false, false, false, none⟩

/-- Two adds at strictly increasing versions that give the same qualified
name to two different table ids. -/
def exC2Data : Data := applyOps NewData
  [.addOp exC1Item1 exC1Tbl, .addOp exC2Item8 exC2Tbl8]

/-- A key-consistent mutation sequence: table 7 is added at version 1 and
removed at version 2, and its name is never reused. -/
def exC2Ops : List CatalogOp := [.addOp exC1Item1 exC1Tbl, .removeOp exC1Item]

/-! ## Lemmas: generic list helpers -/

theorem find?_eq_head?_filterL {α : Type} (p : α → Bool) (l : List α) :
    l.find? p = (l.filter p).head? := by
  induction l with
  | nil => rfl
  | cons x xs ih =>
    cases hp : p x
    · rw [List.find?_cons_of_neg _ (by simp [hp]), ih,
        List.filter_cons_of_neg (by simp [hp])]
    · rw [List.find?_cons_of_pos _ hp, List.filter_cons_of_pos hp,
        List.head?_cons]

/-! ## Lemmas: the ordered-index model -/

theorem btreeSet_cons {α : Type} (cmp : α → α → Bool) (x y : α)
    (ys : List α) :
    btreeSet cmp x (y :: ys) =
      if cmp x y then x :: y :: ys
      else if cmp y x then y :: btreeSet cmp x ys
      else x :: ys := rfl

theorem mem_btreeSet_self {α : Type} (cmp : α → α → Bool) (x : α)
    (l : List α) : x ∈ btreeSet cmp x l := by
  induction l with
  | nil => simp [btreeSet]
  | cons y ys ih =>
    rw [btreeSet_cons]
    cases h1 : cmp x y
    · cases h2 : cmp y x <;> simp [ih]
    · simp

theorem mem_of_mem_btreeSet {α : Type} {cmp : α → α → Bool} {x z : α}
    {l : List α} (h : z ∈ btreeSet cmp x l) : z = x ∨ z ∈ l := by
  induction l with
  | nil => simpa [btreeSet] using h
  | cons y ys ih =>
    rw [btreeSet_cons] at h
    cases h1 : cmp x y <;> rw [h1] at h
    · cases h2 : cmp y x <;> rw [h2] at h
      · simp only [Bool.false_eq_true, if_false, List.mem_cons] at h
        rcases h with h | h
        · exact Or.inl h
        · exact Or.inr (by simp [h])
      · rw [if_pos rfl] at h
        rcases List.mem_cons.mp h with h | h
        · exact Or.inr (by simp [h])
        · rcases ih h with h' | h'
          · exact Or.inl h'
          · exact Or.inr (by simp [h'])
    · rw [if_pos rfl] at h
      rcases List.mem_cons.mp h with h | h
      · exact Or.inl h
      · exact Or.inr h

theorem mem_btreeSet_of_mem {α : Type} {cmp : α → α → Bool} {x y : α}
    {l : List α} (h : y ∈ l) (hne : cmp x y = true ∨ cmp y x = true) :
    y ∈ btreeSet cmp x l := by
  induction l with
  | nil => cases h
  | cons z zs ih =>
    rw [btreeSet_cons]
    cases h1 : cmp x z
    · cases h2 : cmp z x
      · simp only [Bool.false_eq_true, if_false, List.mem_cons]
        rcases List.mem_cons.mp h with h' | h'
        · subst h'
          rcases hne with hc | hc
          · rw [hc] at h1; cases h1
          · rw [hc] at h2; cases h2
        · exact Or.inr h'
      · simp only [Bool.false_eq_true, if_false, if_true, List.mem_cons]
        rcases List.mem_cons.mp h with h' | h'
        · exact Or.inl h'
        · exact Or.inr (ih h')
    · simp only [if_true]
      exact List.mem_cons_of_mem _ h

section RankLemmas

variable {κ : Type} [LinearOrder κ]

theorem btreeSet_pairwise {α : Type} (ρ : α → κ) (cmp : α → α → Bool)
    (hcmp : ∀ a b, cmp a b = true ↔ ρ a < ρ b) (x : α) (l : List α)
    (hs : l.Pairwise (fun a b => cmp a b = true)) :
    (btreeSet cmp x l).Pairwise (fun a b => cmp a b = true) := by
  induction l with
  | nil => simp [btreeSet]
  | cons y ys ih =>
    rcases List.pairwise_cons.mp hs with ⟨hy, hys⟩
    rw [btreeSet_cons]
    cases h1 : cmp x y
    · cases h2 : cmp y x
      · have hxy : ρ x = ρ y := by
          have n1 : ¬ρ x < ρ y := fun hc => by
            rw [(hcmp x y).mpr hc] at h1; cases h1
          have n2 : ¬ρ y < ρ x := fun hc => by
            rw [(hcmp y x).mpr hc] at h2; cases h2
          exact le_antisymm (not_lt.mp n2) (not_lt.mp n1)
        simp only [Bool.false_eq_true, if_false]
        refine List.pairwise_cons.mpr ⟨?_, hys⟩
        intro z hz
        exact (hcmp x z).mpr (hxy ▸ (hcmp y z).mp (hy z hz))
      · simp only [Bool.false_eq_true, if_false, if_true]
        refine List.pairwise_cons.mpr ⟨?_, ih hys⟩
        intro z hz
        rcases mem_of_mem_btreeSet hz with h' | h'
        · exact h' ▸ h2
        · exact hy z h'
    · simp only [if_true]
      refine List.pairwise_cons.mpr ⟨?_, hs⟩
      intro z hz
      rcases List.mem_cons.mp hz with h' | h'
      · exact h' ▸ h1
      · exact (hcmp x z).mpr (lt_trans ((hcmp x y).mp h1) ((hcmp y z).mp (hy z h')))

theorem filter_btreeSet_of_not {α : Type} (ρ : α → κ) (cmp : α → α → Bool)
    (hcmp : ∀ a b, cmp a b = true ↔ ρ a < ρ b) (p : α → Bool) (x : α)
    (l : List α) (hpx : p x = false)
    (hrank : ∀ y, ρ y = ρ x → p y = false) :
    (btreeSet cmp x l).filter p = l.filter p := by
  induction l with
  | nil => simp [btreeSet, List.filter_cons, hpx]
  | cons y ys ih =>
    rw [btreeSet_cons]
    cases h1 : cmp x y
    · cases h2 : cmp y x
      · have hxy : ρ y = ρ x := by
          have n1 : ¬ρ x < ρ y := fun hc => by
            rw [(hcmp x y).mpr hc] at h1; cases h1
          have n2 : ¬ρ y < ρ x := fun hc => by
            rw [(hcmp y x).mpr hc] at h2; cases h2
          exact le_antisymm (not_lt.mp n1) (not_lt.mp n2)
        simp only [Bool.false_eq_true, if_false]
        simp [List.filter_cons, hpx, hrank y hxy]
      · simp only [Bool.false_eq_true, if_false, if_true]
        simp [List.filter_cons, ih]
    · simp only [if_true]
      simp [List.filter_cons, hpx]

theorem filter_btreeSet_key {α : Type} (ρ : α → κ) (ν : α → Int)
    (cmp : α → α → Bool)
    (hcmp : ∀ a b, cmp a b = true ↔
      toLex (ρ a, ν a) < toLex (ρ b, ν b))
    (p : α → Bool) (x : α) (l : List α)
    (hp : ∀ y, p y = true ↔ ρ y = ρ x)
    (hs : l.Pairwise (fun a b => cmp a b = true)) :
    (btreeSet cmp x l).filter p =
      btreeSet (fun a b => decide (ν a < ν b)) x (l.filter p) := by
  induction l with
  | nil => simp [btreeSet, List.filter_cons, (hp x).mpr rfl]
  | cons y ys ih =>
    rcases List.pairwise_cons.mp hs with ⟨hy, hys⟩
    rw [btreeSet_cons]
    cases h1 : cmp x y
    · cases h2 : cmp y x
      · have hxy : toLex (ρ x, ν x) = toLex (ρ y, ν y) := by
          have n1 : ¬toLex (ρ x, ν x) < toLex (ρ y, ν y) := fun hc => by
            rw [(hcmp x y).mpr hc] at h1; cases h1
          have n2 : ¬toLex (ρ y, ν y) < toLex (ρ x, ν x) := fun hc => by
            rw [(hcmp y x).mpr hc] at h2; cases h2
          exact le_antisymm (not_lt.mp n2) (not_lt.mp n1)
        have hpair := toLex_inj.mp hxy
        have hν : ν x = ν y := congrArg Prod.snd hpair
        have hpy : p y = true :=
          (hp y).mpr (congrArg Prod.fst hpair).symm
        simp only [Bool.false_eq_true, if_false]
        rw [List.filter_cons_of_pos (by rw [(hp x)]),
          List.filter_cons_of_pos hpy, btreeSet_cons,
          if_neg (by simp [hν]), if_neg (by simp [hν])]
      · simp only [Bool.false_eq_true, if_false, if_true]
        cases hpy : p y
        · rw [List.filter_cons_of_neg (by simp [hpy]),
            List.filter_cons_of_neg (by simp [hpy])]
          exact ih hys
        · have hρ : ρ y = ρ x := (hp y).mp hpy
          have hlex := (hcmp y x).mp h2
          rw [Prod.Lex.lt_iff] at hlex
          have hν : ν y < ν x := by
            rcases hlex with h' | ⟨h', hv⟩
            · have h'' : ρ y < ρ x := h'
              rw [hρ] at h''
              exact absurd h'' (lt_irrefl _)
            · exact hv
          rw [List.filter_cons_of_pos (by simp [hpy]),
            List.filter_cons_of_pos (by simp [hpy]), btreeSet_cons,
            if_neg (by simp [not_lt.mpr (le_of_lt hν)]),
            if_pos (by simp [hν]), ih hys]
    · simp only [if_true]
      rw [List.filter_cons_of_pos (by rw [(hp x)])]
      cases hpy : p y
      · rw [List.filter_cons_of_neg (by simp [hpy])]
        cases hf : ys.filter p with
        | nil => rfl
        | cons z rest =>
          have hz : z ∈ ys.filter p := by
            rw [hf]; exact List.mem_cons_self _ _
          have hzy : z ∈ ys := List.mem_of_mem_filter hz
          have hρz : ρ z = ρ x := (hp z).mp (List.of_mem_filter hz)
          have hlex := lt_trans ((hcmp x y).mp h1)
            ((hcmp y z).mp (hy z hzy))
          rw [Prod.Lex.lt_iff] at hlex
          have hν : ν x < ν z := by
            rcases hlex with h' | ⟨h', hv⟩
            · have h'' : ρ x < ρ z := h'
              rw [hρz] at h''
              exact absurd h'' (lt_irrefl _)
            · exact hv
          rw [btreeSet_cons, if_pos (by simp [hν])]
      · have hρ : ρ y = ρ x := (hp y).mp hpy
        have hlex := (hcmp x y).mp h1
        rw [Prod.Lex.lt_iff] at hlex
        have hν : ν x < ν y := by
          rcases hlex with h' | ⟨h', hv⟩
          · have h'' : ρ x < ρ y := h'
            rw [hρ] at h''
            exact absurd h'' (lt_irrefl _)
          · exact hv
        rw [List.filter_cons_of_pos (by simp [hpy]), btreeSet_cons,
          if_pos (by simp [hν])]

end RankLemmas

/-! ## Lemmas: the sieve cache -/

theorem sieveGet_fst (c : List SieveEntry) (k : TableCacheKey) :
    (sieveGet c k).1 = sieveLookup c k := rfl

theorem sieveLookup_cons (e : SieveEntry) (es : List SieveEntry)
    (k : TableCacheKey) :
    sieveLookup (e :: es) k =
      if e.key = k then some e.value else sieveLookup es k := by
  by_cases h : e.key = k <;> simp [sieveLookup, List.find?_cons, h]

theorem sieveLookup_sieveGet_snd (c : List SieveEntry) (k k' : TableCacheKey) :
    sieveLookup (sieveGet c k).2 k' = sieveLookup c k' := by
  induction c with
  | nil => rfl
  | cons e es ih =>
    show sieveLookup
      ((if e.key == k then { e with visited := true } else e) ::
        (sieveGet es k).2) k' = _
    by_cases hk : e.key = k
    · rw [if_pos (by simp [hk]), sieveLookup_cons, sieveLookup_cons]
      by_cases hk' : e.key = k' <;> simp [hk', ih]
    · rw [if_neg (by simp [hk]), sieveLookup_cons, sieveLookup_cons]
      by_cases hk' : e.key = k' <;> simp [hk', ih]

theorem sieveRemove_cons (e : SieveEntry) (es : List SieveEntry)
    (k : TableCacheKey) :
    sieveRemove (e :: es) k =
      if e.key = k then sieveRemove es k else e :: sieveRemove es k := by
  by_cases h : e.key = k <;> simp [sieveRemove, List.filter_cons, h]

theorem sieveLookup_sieveRemove (c : List SieveEntry) (k k' : TableCacheKey) :
    sieveLookup (sieveRemove c k) k' =
      if k' = k then none else sieveLookup c k' := by
  induction c with
  | nil => simp [sieveRemove, sieveLookup]
  | cons e es ih =>
    rw [sieveRemove_cons]
    by_cases hek : e.key = k
    · rw [if_pos hek, ih, sieveLookup_cons]
      by_cases hk' : k' = k
      · simp [hk']
      · have hek' : e.key ≠ k' := by
          rw [hek]; exact fun hc => hk' hc.symm
        simp [hk', hek']
    · rw [if_neg hek, sieveLookup_cons, sieveLookup_cons, ih]
      by_cases hek' : e.key = k'
      · have hk'k : k' ≠ k := by
          rw [← hek']; exact fun hc => hek hc
        simp [hek', hk'k]
      · simp [hek']

theorem sieveLookup_eq_none (c : List SieveEntry) (k : TableCacheKey)
    (h : ∀ e ∈ c, e.key ≠ k) : sieveLookup c k = none := by
  induction c with
  | nil => rfl
  | cons e es ih =>
    rw [sieveLookup_cons, if_neg (h e (by simp))]
    exact ih (fun e' he' => h e' (by simp [he']))

/-! ## Lemmas: `search` -/

theorem mem_of_getLast?_eq {α : Type} {l : List α} {a : α}
    (h : l.getLast? = some a) : a ∈ l :=
  List.mem_of_mem_getLast? (by rw [h]; exact Option.mem_some_self a)

theorem searchVisit_cons_none (V : Int) (end_ : TableItem)
    (matchFn : TableItem → TableItem → Bool) (item : TableItem)
    (rest : List TableItem) :
    searchVisit V end_ matchFn (item :: rest) none =
      if !matchFn end_ item then none
      else if item.schemaVersion > V then searchVisit V end_ matchFn rest none
      else searchVisit V end_ matchFn rest (some item) := rfl

theorem searchVisit_cons_some (V : Int) (end_ : TableItem)
    (matchFn : TableItem → TableItem → Bool) (item : TableItem)
    (rest : List TableItem) (t : TableItem) :
    searchVisit V end_ matchFn (item :: rest) (some t) =
      if !matchFn end_ item then some t
      else if item.schemaVersion > V then
        searchVisit V end_ matchFn rest (some t)
      else if item.schemaVersion > t.schemaVersion then
        searchVisit V end_ matchFn rest (some item)
      else searchVisit V end_ matchFn rest (some t) := rfl

theorem searchVisit_keep (V : Int) (end_ : TableItem)
    (matchFn : TableItem → TableItem → Bool) (t : TableItem)
    (ds : List TableItem)
    (h : ∀ x ∈ ds, x.schemaVersion < t.schemaVersion) :
    searchVisit V end_ matchFn ds (some t) = some t := by
  induction ds with
  | nil => rfl
  | cons x xs ih =>
    rw [searchVisit_cons_some]
    cases hm : matchFn end_ x
    · simp
    · simp only [Bool.not_true, Bool.false_eq_true, if_false]
      by_cases hv : x.schemaVersion > V
      · rw [if_pos hv]
        exact ih (fun y hy => h y (by simp [hy]))
      · rw [if_neg hv]
        have hlt : ¬x.schemaVersion > t.schemaVersion :=
          not_lt.mpr (le_of_lt (h x (by simp)))
        rw [if_neg hlt]
        exact ih (fun y hy => h y (by simp [hy]))

theorem searchVisit_desc (V : Int) (end_ : TableItem)
    (matchFn : TableItem → TableItem → Bool) (ds : List TableItem)
    (hall : ∀ x ∈ ds, matchFn end_ x = true)
    (hs : ds.Pairwise (fun a b => b.schemaVersion < a.schemaVersion)) :
    searchVisit V end_ matchFn ds none =
      ds.find? (fun x => decide (x.schemaVersion ≤ V)) := by
  induction ds with
  | nil => rfl
  | cons x xs ih =>
    rcases List.pairwise_cons.mp hs with ⟨hx, hxs⟩
    rw [searchVisit_cons_none]
    rw [hall x (by simp)]
    simp only [Bool.not_true, Bool.false_eq_true, if_false]
    by_cases hv : x.schemaVersion > V
    · rw [if_pos hv, ih (fun y hy => hall y (by simp [hy])) hxs,
        List.find?_cons_of_neg _ (by simpa using hv)]
    · rw [if_neg hv, searchVisit_keep V end_ matchFn x xs hx,
        List.find?_cons_of_pos _ (by simpa using not_lt.mp hv)]

theorem searchVisit_stop (V : Int) (end_ : TableItem)
    (matchFn : TableItem → TableItem → Bool) (P Q : List TableItem)
    (acc : Option TableItem)
    (hP : ∀ x ∈ P, matchFn end_ x = true)
    (hQ : ∀ y, Q.head? = some y → matchFn end_ y = false) :
    searchVisit V end_ matchFn (P ++ Q) acc =
      searchVisit V end_ matchFn P acc := by
  induction P generalizing acc with
  | nil =>
    cases Q with
    | nil => rfl
    | cons y t =>
      cases acc with
      | none =>
        rw [List.nil_append, searchVisit_cons_none, hQ y rfl]
        rfl
      | some u =>
        rw [List.nil_append, searchVisit_cons_some, hQ y rfl]
        rfl
  | cons x xs ih =>
    have hm := hP x (by simp)
    have ih' := fun acc => ih acc (fun y hy => hP y (by simp [hy]))
    cases acc with
    | none =>
      rw [List.cons_append, searchVisit_cons_none, searchVisit_cons_none, hm]
      simp only [Bool.not_true, Bool.false_eq_true, if_false]
      by_cases hv : x.schemaVersion > V
      · rw [if_pos hv, if_pos hv, ih']
      · rw [if_neg hv, if_neg hv, ih']
    | some t =>
      rw [List.cons_append, searchVisit_cons_some, searchVisit_cons_some, hm]
      simp only [Bool.not_true, Bool.false_eq_true, if_false]
      by_cases hv : x.schemaVersion > V
      · rw [if_pos hv, if_pos hv, ih']
      · rw [if_neg hv, if_neg hv]
        by_cases ht : x.schemaVersion > t.schemaVersion
        · rw [if_pos ht, if_pos ht, ih']
        · rw [if_neg ht, if_neg ht, ih']

theorem getLast?_version_max (M : List TableItem)
    (hs : M.Pairwise (fun a b => a.schemaVersion < b.schemaVersion))
    (t : TableItem) (h : M.getLast? = some t) :
    ∀ x ∈ M, x.schemaVersion ≤ t.schemaVersion := by
  induction M with
  | nil => cases h
  | cons x xs ih =>
    rcases List.pairwise_cons.mp hs with ⟨hx, hxs⟩
    cases xs with
    | nil =>
      intro y hy
      rcases List.mem_singleton.mp hy with rfl
      cases h
      exact le_refl _
    | cons z zs =>
      rw [List.getLast?_cons_cons] at h
      intro y hy
      rcases List.mem_cons.mp hy with rfl | hy'
      · exact le_of_lt (hx t (mem_of_getLast?_eq h))
      · exact ih hxs h y hy'

theorem head?_mem {α : Type} {l : List α} {a : α} (h : l.head? = some a) :
    a ∈ l := by
  cases l with
  | nil => cases h
  | cons x xs =>
    rw [List.head?_cons, Option.some_inj] at h
    simp [h]

theorem getLast?_eq_of_max (M : List TableItem)
    (hs : M.Pairwise (fun a b => a.schemaVersion < b.schemaVersion))
    (t : TableItem) (ht : t ∈ M)
    (hmax : ∀ x ∈ M, x.schemaVersion ≤ t.schemaVersion) :
    M.getLast? = some t := by
  induction M with
  | nil => cases ht
  | cons x xs ih =>
    rcases List.pairwise_cons.mp hs with ⟨hx, hxs⟩
    cases xs with
    | nil =>
      rcases List.mem_singleton.mp ht with rfl
      rfl
    | cons z zs =>
      rw [List.getLast?_cons_cons]
      rcases List.mem_cons.mp ht with rfl | ht'
      · exact absurd (hmax z (by simp)) (not_le.mpr (hx z (by simp)))
      · exact ih hxs ht' (fun y hy => hmax y (by simp [hy]))

section SearchSpec

variable {κ : Type} [LinearOrder κ]

theorem filter_key_split (key : TableItem → κ)
    (cmp : TableItem → TableItem → Bool)
    (hcmp : ∀ a b, cmp a b = true ↔
      toLex (key a, a.schemaVersion) < toLex (key b, b.schemaVersion))
    (K : κ) (l : List TableItem)
    (hs : l.Pairwise (fun a b => cmp a b = true)) :
    l.filter (fun y => decide (key y ≤ K)) =
      l.filter (fun y => decide (key y < K)) ++
        l.filter (fun y => decide (key y = K)) := by
  induction l with
  | nil => rfl
  | cons x xs ih =>
    rcases List.pairwise_cons.mp hs with ⟨hx, hxs⟩
    rcases lt_trichotomy (key x) K with h | h | h
    · rw [List.filter_cons_of_pos (by simpa using le_of_lt h),
        List.filter_cons_of_pos (by simpa using h),
        List.filter_cons_of_neg (by simpa using ne_of_lt h),
        ih hxs, List.cons_append]
    · have hge : ∀ a ∈ xs, ¬key a < K := by
        intro a ha
        have hlex := (hcmp x a).mp (hx a ha)
        rw [Prod.Lex.lt_iff] at hlex
        rcases hlex with h' | ⟨h', _⟩
        · have hl : key x < key a := h'
          exact not_lt.mpr (le_of_lt (by rw [← h]; exact hl))
        · have he : key x = key a := h'
          exact not_lt.mpr (le_of_eq (by rw [← h]; exact he))
      have hlt : xs.filter (fun y => decide (key y < K)) = [] := by
        rw [List.filter_eq_nil_iff]
        intro a ha
        simpa using hge a ha
      rw [List.filter_cons_of_pos (by simpa using le_of_eq h),
        List.filter_cons_of_neg (by simp [h]),
        List.filter_cons_of_pos (by simpa using h), ih hxs, hlt]
      rfl
    · rw [List.filter_cons_of_neg (by simpa using not_le.mpr h),
        List.filter_cons_of_neg (by simp [asymm h]),
        List.filter_cons_of_neg (by simp [ne_of_gt h]), ih hxs]

theorem search_spec (key : TableItem → κ)
    (cmp matchFn : TableItem → TableItem → Bool)
    (end_ : TableItem) (bt : List TableItem) (V : Int)
    (hcmp : ∀ a b, cmp a b = true ↔
      toLex (key a, a.schemaVersion) < toLex (key b, b.schemaVersion))
    (hmatch : ∀ x, matchFn end_ x = true ↔ key x = key end_)
    (hs : bt.Pairwise (fun a b => cmp a b = true))
    (hbound : ∀ x ∈ bt, key x = key end_ → x.schemaVersion < end_.schemaVersion) :
    search cmp bt V end_ matchFn = specLookup V (matchFn end_) bt := by
  have hdescend : bt.filter (fun y => !cmp end_ y) =
      bt.filter (fun y => decide (key y ≤ key end_)) := by
    apply List.filter_congr
    intro y hy
    cases hc : cmp end_ y
    · have : ¬key end_ < key y := by
        intro hk
        rw [(hcmp end_ y).mpr (Prod.Lex.lt_iff _ _ |>.mpr (Or.inl hk))] at hc
        cases hc
      simp [not_lt.mp this]
    · have hlex := (hcmp end_ y).mp hc
      rw [Prod.Lex.lt_iff] at hlex
      rcases hlex with h' | ⟨h', hv⟩
      · simp [not_le.mpr h']
      · exact absurd hv (not_lt.mpr (le_of_lt (hbound y hy h'.symm)))
  have hsplit := filter_key_split key cmp hcmp (key end_) bt hs
  have hmatchP : ∀ x ∈ (bt.filter (fun y => decide (key y = key end_))).reverse,
      matchFn end_ x = true := by
    intro x hx
    rw [List.mem_reverse] at hx
    exact (hmatch x).mpr (by simpa using (List.mem_filter.mp hx).2)
  have hsortP : ((bt.filter (fun y => decide (key y = key end_))).reverse).Pairwise
      (fun a b => b.schemaVersion < a.schemaVersion) := by
    rw [List.pairwise_reverse]
    have hsub : (bt.filter (fun y => decide (key y = key end_))).Pairwise
        (fun a b => cmp a b = true) :=
      List.Pairwise.sublist (List.filter_sublist bt) hs
    refine hsub.imp_of_mem ?_
    intro a b ha hb hab
    have hka : key a = key end_ := by simpa using (List.mem_filter.mp ha).2
    have hkb : key b = key end_ := by simpa using (List.mem_filter.mp hb).2
    have hlex := (hcmp a b).mp hab
    rw [Prod.Lex.lt_iff] at hlex
    rcases hlex with h' | ⟨_, hv⟩
    · exact absurd (hkb ▸ hka ▸ h') (lt_irrefl _)
    · exact hv
  unfold search btreeDescend
  rw [hdescend, hsplit, List.reverse_append,
    searchVisit_stop V end_ matchFn _ _ none hmatchP ?hq,
    searchVisit_desc V end_ matchFn _ hmatchP hsortP,
    find?_eq_head?_filterL, List.filter_reverse, List.head?_reverse,
    List.filter_filter]
  case hq =>
    intro y hy
    have hmem := head?_mem hy
    rw [List.mem_reverse] at hmem
    have hk : key y < key end_ := by simpa using (List.mem_filter.mp hmem).2
    cases hmy : matchFn end_ y
    · rfl
    · exact absurd ((hmatch y).mp hmy) (ne_of_lt hk)
  have hM : (bt.filter
        (fun a => decide (a.schemaVersion ≤ V) && decide (key a = key end_))) =
      bt.filter (fun x => matchFn end_ x && decide (x.schemaVersion ≤ V)) := by
    apply List.filter_congr
    intro y _
    cases hmy : matchFn end_ y
    · have : (decide (key y = key end_)) = false := by
        by_cases h' : key y = key end_
        · rw [(hmatch y).mpr h'] at hmy; cases hmy
        · simpa using h'
      simp [this]
    · have : (decide (key y = key end_)) = true := by
        simpa using (hmatch y).mp hmy
      simp [this]
  rw [hM]
  unfold specLookup
  rfl

theorem filter_match_pairwise (key : TableItem → κ)
    (cmp : TableItem → TableItem → Bool) (K : κ)
    (bt : List TableItem) (p : TableItem → Bool)
    (hcmp : ∀ a b, cmp a b = true ↔
      toLex (key a, a.schemaVersion) < toLex (key b, b.schemaVersion))
    (hs : bt.Pairwise (fun a b => cmp a b = true))
    (hkey : ∀ x ∈ bt, p x = true → key x = K) :
    (bt.filter p).Pairwise (fun a b => a.schemaVersion < b.schemaVersion) := by
  have hsub : (bt.filter p).Pairwise (fun a b => cmp a b = true) :=
    List.Pairwise.sublist (List.filter_sublist bt) hs
  refine hsub.imp_of_mem ?_
  intro a b ha hb hab
  have hma := List.mem_filter.mp ha
  have hmb := List.mem_filter.mp hb
  have hka : key a = K := hkey a hma.1 hma.2
  have hkb : key b = K := hkey b hmb.1 hmb.2
  have hlex := (hcmp a b).mp hab
  rw [Prod.Lex.lt_iff] at hlex
  rcases hlex with h' | ⟨_, hv⟩
  · have h'' : key a < key b := h'
    rw [hka, hkb] at h''
    exact absurd h'' (lt_irrefl _)
  · exact hv

end SearchSpec

/-! ## Lemmas: the concrete comparators as lexicographic orders -/

theorem strLt_iff (a b : String) : strLt a b = true ↔ a < b := by
  rw [strLt, decide_eq_true_eq, String.lt_iff_toList_lt]
  exact Iff.rfl

theorem strLt_eq_false_iff (a b : String) : strLt a b = false ↔ ¬a < b := by
  rw [← Bool.not_eq_true, strLt_iff]

theorem compareByID_lex (a b : TableItem) :
    compareByID a b = true ↔
      toLex (a.tableID, a.schemaVersion) < toLex (b.tableID, b.schemaVersion) := by
  unfold compareByID
  rw [Prod.Lex.lt_iff]
  rcases lt_trichotomy a.tableID b.tableID with h | h | h
  · simp [h]
  · simp [h, lt_irrefl]
  · simp [asymm h, h, ne_of_gt h]

theorem eqByTableID_iff (end_ x : TableItem) :
    eqByTableID end_ x = true ↔ x.tableID = end_.tableID := by
  unfold eqByTableID
  rw [beq_iff_eq, eq_comm]

theorem compareByName_lex (a b : TableItem) :
    compareByName a b = true ↔
      toLex ((toLex (a.dbName, a.tableName) : String ×ₗ String), a.schemaVersion) <
        toLex ((toLex (b.dbName, b.tableName) : String ×ₗ String), b.schemaVersion) := by
  unfold compareByName
  simp only [Prod.Lex.lt_iff, toLex_inj, Prod.mk.injEq]
  rcases lt_trichotomy a.dbName b.dbName with h | h | h
  · simp [strLt_iff, h]
  · rcases lt_trichotomy a.tableName b.tableName with h2 | h2 | h2
    · simp [strLt_iff, strLt_eq_false_iff, h, h2, lt_irrefl]
    · simp [strLt_iff, strLt_eq_false_iff, h, h2, lt_irrefl]
    · simp [strLt_iff, strLt_eq_false_iff, h, h2, asymm h2, ne_of_gt h2,
        lt_irrefl]
  · simp [strLt_iff, strLt_eq_false_iff, h, asymm h, ne_of_gt h]

theorem eqByDBAndTableName_iff (end_ x : TableItem) :
    eqByDBAndTableName end_ x = true ↔
      (toLex (x.dbName, x.tableName) : String ×ₗ String) =
        toLex (end_.dbName, end_.tableName) := by
  unfold eqByDBAndTableName
  simp only [Bool.and_eq_true, beq_iff_eq, toLex_inj, Prod.mk.injEq]
  constructor
  · rintro ⟨h1, h2⟩
    exact ⟨h1.symm, h2.symm⟩
  · rintro ⟨h1, h2⟩
    exact ⟨h1.symm, h2.symm⟩

/-! ## Lemmas: result projections of the snapshot lookups -/

theorem specLookup_some (V : Int) (p : TableItem → Bool)
    (bt : List TableItem) (t : TableItem) (h : specLookup V p bt = some t) :
    t ∈ bt ∧ p t = true ∧ t.schemaVersion ≤ V ∧ t.tomb = false := by
  unfold specLookup at h
  cases hlast : (bt.filter
      (fun x => p x && decide (x.schemaVersion ≤ V))).getLast? with
  | none => rw [hlast] at h; cases h
  | some u =>
    rw [hlast] at h
    have h' : (if u.tomb = true then none else some u) = some t := h
    by_cases hu : u.tomb = true
    · rw [if_pos hu] at h'; cases h'
    · rw [if_neg hu, Option.some_inj] at h'
      subst h'
      have hm := List.mem_filter.mp (mem_of_getLast?_eq hlast)
      rw [Bool.and_eq_true] at hm
      exact ⟨hm.1, hm.2.1, by simpa using hm.2.2, by simpa using hu⟩

theorem specLookup_filter_congr (V : Int) (p q : TableItem → Bool)
    (l m : List TableItem) (h : l.filter p = m.filter q) :
    specLookup V p l = specLookup V q m := by
  unfold specLookup
  have h2 : ∀ (r : TableItem → Bool) (L : List TableItem),
      L.filter (fun x => r x && decide (x.schemaVersion ≤ V)) =
        (L.filter r).filter (fun x => decide (x.schemaVersion ≤ V)) := by
    intro r L
    rw [List.filter_filter]
    exact List.filter_congr (fun x _ => by rw [Bool.and_comm])
  rw [h2, h2, h]

theorem tableByID_fst_eq (d : Data) (smv : Int) (ts : Nat) (kv : KVStore)
    (id : Int) (noRefill : Bool) :
    (tableByID d smv ts kv id noRefill).1 =
      if !tableIDIsValid id then none
      else
        match sieveLookup d.tableCache ⟨id, smv⟩ with
        | some tbl => some tbl
        | none =>
          match search compareByID d.byID smv ⟨"", 0, "", id, maxInt64, false⟩
              eqByTableID with
          | none => none
          | some itm =>
            if isTableVirtual id then
              match lookupStr d.specials itm.dbName with
              | some schTbls => lookupStr schTbls.tables itm.tableName
              | none => none
            else
              match sieveLookup d.tableCache
                  ⟨itm.tableID, itm.schemaVersion⟩ with
              | some tbl => some tbl
              | none => loadTableInfo kv id itm.dbID ts smv := by
  unfold tableByID
  cases hv : tableIDIsValid id
  · rfl
  · simp only [Bool.not_true, Bool.false_eq_true, if_false]
    have hg1 : (sieveGet d.tableCache ⟨id, smv⟩).1 =
      sieveLookup d.tableCache ⟨id, smv⟩ := rfl
    cases h1 : sieveLookup d.tableCache ⟨id, smv⟩ with
    | some tbl => rw [show (sieveGet d.tableCache ⟨id, smv⟩).1 = some tbl from h1]
    | none =>
      rw [show (sieveGet d.tableCache ⟨id, smv⟩).1 = none from h1]
      cases h2 : search compareByID d.byID smv ⟨"", 0, "", id, maxInt64, false⟩
          eqByTableID with
      | none => rfl
      | some itm =>
        cases hvirt : isTableVirtual id
        · simp only [Bool.false_eq_true, if_false]
          have hc2 : sieveLookup (sieveGet d.tableCache ⟨id, smv⟩).2
              ⟨itm.tableID, itm.schemaVersion⟩ =
              sieveLookup d.tableCache ⟨itm.tableID, itm.schemaVersion⟩ :=
            sieveLookup_sieveGet_snd ..
          cases h3 : sieveLookup d.tableCache
              ⟨itm.tableID, itm.schemaVersion⟩ with
          | some tbl =>
            rw [show (sieveGet (sieveGet d.tableCache ⟨id, smv⟩).2
              ⟨itm.tableID, itm.schemaVersion⟩).1 = some tbl from hc2.trans h3]
            cases noRefill <;> rfl
          | none =>
            rw [show (sieveGet (sieveGet d.tableCache ⟨id, smv⟩).2
              ⟨itm.tableID, itm.schemaVersion⟩).1 = none from hc2.trans h3]
            cases h4 : loadTableInfo kv id itm.dbID ts smv with
            | none => rfl
            | some ret => cases noRefill <;> rfl
        · simp only [if_true]
          cases h5 : lookupStr d.specials itm.dbName with
          | none => rfl
          | some schTbls => rfl

theorem TableByName_fst_eq (d : Data) (smv : Int) (ts : Nat) (kv : KVStore)
    (schema tbl : CIStr) :
    (TableByName d smv ts kv schema tbl).1 =
      if IsSpecialDB schema.l then
        match lookupStr d.specials schema.l with
        | some tbNames => lookupStr tbNames.tables tbl.l
        | none => none
      else
        match search compareByName d.byName smv
            ⟨schema.l, 0, tbl.l, 0, maxInt64, false⟩ eqByDBAndTableName with
        | none => none
        | some itm =>
          match sieveLookup d.tableCache
              ⟨itm.tableID, itm.schemaVersion⟩ with
          | some res => some res
          | none => loadTableInfo kv itm.tableID itm.dbID ts smv := by
  unfold TableByName
  cases hsp : IsSpecialDB schema.l
  · simp only [Bool.false_eq_true, if_false]
    cases h2 : search compareByName d.byName smv
        ⟨schema.l, 0, tbl.l, 0, maxInt64, false⟩ eqByDBAndTableName with
    | none => rfl
    | some itm =>
      dsimp only
      cases h3 : sieveLookup d.tableCache
          ⟨itm.tableID, itm.schemaVersion⟩ with
      | some res =>
        rw [show (sieveGet d.tableCache
          ⟨itm.tableID, itm.schemaVersion⟩).1 = some res from h3]
      | none =>
        rw [show (sieveGet d.tableCache
          ⟨itm.tableID, itm.schemaVersion⟩).1 = none from h3]
        cases h4 : loadTableInfo kv itm.tableID itm.dbID ts smv with
        | none => rfl
        | some ret => rfl
  · simp only [if_true]
    cases h1 : lookupStr d.specials schema.l with
    | none => rfl
    | some tbNames =>
      dsimp only
      cases h2 : lookupStr tbNames.tables tbl.l with
      | none => rfl
      | some t => rfl

theorem tableByID_fst_congr (d d' : Data) (smv : Int) (ts : Nat)
    (kv : KVStore) (id : Int) (noRefill : Bool)
    (hfast : sieveLookup d'.tableCache ⟨id, smv⟩ =
      sieveLookup d.tableCache ⟨id, smv⟩)
    (hsearch : search compareByID d'.byID smv ⟨"", 0, "", id, maxInt64, false⟩
        eqByTableID =
      search compareByID d.byID smv ⟨"", 0, "", id, maxInt64, false⟩
        eqByTableID)
    (hspec : d'.specials = d.specials)
    (hold : ∀ itm, search compareByID d.byID smv
        ⟨"", 0, "", id, maxInt64, false⟩ eqByTableID = some itm →
      sieveLookup d'.tableCache ⟨itm.tableID, itm.schemaVersion⟩ =
        sieveLookup d.tableCache ⟨itm.tableID, itm.schemaVersion⟩) :
    (tableByID d' smv ts kv id noRefill).1 =
      (tableByID d smv ts kv id noRefill).1 := by
  rw [tableByID_fst_eq, tableByID_fst_eq, hfast, hsearch, hspec]
  cases h1 : sieveLookup d.tableCache ⟨id, smv⟩ with
  | some tbl => rfl
  | none =>
    cases h2 : search compareByID d.byID smv ⟨"", 0, "", id, maxInt64, false⟩
        eqByTableID with
    | none => rfl
    | some itm =>
      dsimp only
      rw [hold itm h2]

theorem TableByName_fst_congr (d d' : Data) (smv : Int) (ts : Nat)
    (kv : KVStore) (schema tbl : CIStr)
    (hsearch : search compareByName d'.byName smv
        ⟨schema.l, 0, tbl.l, 0, maxInt64, false⟩ eqByDBAndTableName =
      search compareByName d.byName smv
        ⟨schema.l, 0, tbl.l, 0, maxInt64, false⟩ eqByDBAndTableName)
    (hspec : d'.specials = d.specials)
    (hold : ∀ itm, search compareByName d.byName smv
        ⟨schema.l, 0, tbl.l, 0, maxInt64, false⟩ eqByDBAndTableName =
          some itm →
      sieveLookup d'.tableCache ⟨itm.tableID, itm.schemaVersion⟩ =
        sieveLookup d.tableCache ⟨itm.tableID, itm.schemaVersion⟩) :
    (TableByName d' smv ts kv schema tbl).1 =
      (TableByName d smv ts kv schema tbl).1 := by
  rw [TableByName_fst_eq, TableByName_fst_eq, hsearch, hspec]
  cases h2 : search compareByName d.byName smv
      ⟨schema.l, 0, tbl.l, 0, maxInt64, false⟩ eqByDBAndTableName with
  | none => rfl
  | some itm =>
    dsimp only
    rw [hold itm h2]

section SearchStability

variable {κ : Type} [LinearOrder κ]

theorem search_btreeSet_newer (key : TableItem → κ)
    (cmp matchFn : TableItem → TableItem → Bool) (end_ x : TableItem)
    (bt : List TableItem) (W : Int)
    (hcmp : ∀ a b, cmp a b = true ↔
      toLex (key a, a.schemaVersion) < toLex (key b, b.schemaVersion))
    (hmatch : ∀ y, matchFn end_ y = true ↔ key y = key end_)
    (hs : bt.Pairwise (fun a b => cmp a b = true))
    (hbound : ∀ y ∈ bt, key y = key end_ →
      y.schemaVersion < end_.schemaVersion)
    (hxver : W < x.schemaVersion)
    (hxbound : x.schemaVersion < end_.schemaVersion) :
    search cmp (btreeSet cmp x bt) W end_ matchFn =
      search cmp bt W end_ matchFn := by
  have hs' : (btreeSet cmp x bt).Pairwise (fun a b => cmp a b = true) :=
    btreeSet_pairwise (fun y => toLex (key y, y.schemaVersion)) cmp hcmp x bt hs
  have hbound' : ∀ y ∈ btreeSet cmp x bt, key y = key end_ →
      y.schemaVersion < end_.schemaVersion := by
    intro y hy hk
    rcases mem_of_mem_btreeSet hy with rfl | hy'
    · exact hxbound
    · exact hbound y hy' hk
  rw [search_spec key cmp matchFn end_ (btreeSet cmp x bt) W hcmp hmatch hs'
      hbound',
    search_spec key cmp matchFn end_ bt W hcmp hmatch hs hbound]
  unfold specLookup
  rw [filter_btreeSet_of_not (fun y => toLex (key y, y.schemaVersion)) cmp hcmp
    _ x bt ?hpx ?hrank]
  case hpx =>
    have : (decide (x.schemaVersion ≤ W)) = false := by
      simpa using not_le.mpr hxver
    simp [this]
  case hrank =>
    intro y hy
    have hv : y.schemaVersion = x.schemaVersion := by
      have := (toLex_inj.mp hy : (key y, y.schemaVersion) = _)
      exact congrArg Prod.snd this
    have : (decide (y.schemaVersion ≤ W)) = false := by
      simpa using not_le.mpr (hv ▸ hxver)
    simp [this]

theorem search_to_tomb (key : TableItem → κ)
    (cmp matchFn : TableItem → TableItem → Bool) (end_ : TableItem)
    (bt : List TableItem) (W : Int) (t : TableItem)
    (hcmp : ∀ a b, cmp a b = true ↔
      toLex (key a, a.schemaVersion) < toLex (key b, b.schemaVersion))
    (hmatch : ∀ y, matchFn end_ y = true ↔ key y = key end_)
    (hs : bt.Pairwise (fun a b => cmp a b = true))
    (hbound : ∀ y ∈ bt, key y = key end_ →
      y.schemaVersion < end_.schemaVersion)
    (htomb : t.tomb = true) (hmem : t ∈ bt)
    (hmatcht : matchFn end_ t = true) (hle : t.schemaVersion ≤ W)
    (hmax : ∀ y ∈ bt, matchFn end_ y = true →
      y.schemaVersion ≤ t.schemaVersion) :
    search cmp bt W end_ matchFn = none := by
  rw [search_spec key cmp matchFn end_ bt W hcmp hmatch hs hbound]
  unfold specLookup
  have hMsort : (bt.filter
      (fun y => matchFn end_ y && decide (y.schemaVersion ≤ W))).Pairwise
      (fun a b => a.schemaVersion < b.schemaVersion) := by
    refine filter_match_pairwise key cmp (key end_) bt _ hcmp hs ?_
    intro y _ hy
    rw [Bool.and_eq_true] at hy
    exact (hmatch y).mp hy.1
  rw [getLast?_eq_of_max _ hMsort t
    (List.mem_filter.mpr ⟨hmem, by
      rw [Bool.and_eq_true]
      exact ⟨hmatcht, by simpa using hle⟩⟩)
    (fun y hy => by
      have h' := List.mem_filter.mp hy
      rw [Bool.and_eq_true] at h'
      exact hmax y h'.1 h'.2.1)]
  dsimp only
  rw [if_pos htomb]

end SearchStability

/-! ## Claim C3 -/

/-- C3: the generalised versioned lookup `search` over a table index (ordered
lexicographically by a key and the schema version, with the equality predicate
deciding key equality), seeded at `(key, schemaVersion = MaxInt64)` and
walking descending, returns among all entries matching the predicate with
`schemaVersion ≤ V` the one with the largest schema version, skipping entries
with `schemaVersion > V`; if that selected entry is a tomb it reports absent,
otherwise it reports present with that entry. -/
theorem c3_search_versioned_lookup {κ : Type} [LinearOrder κ]
    (key : TableItem → κ) (cmp matchFn : TableItem → TableItem → Bool)
    (end_ : TableItem) (bt : List TableItem) (V : Int)
    (hcmp : ∀ a b, cmp a b = true ↔
      toLex (key a, a.schemaVersion) < toLex (key b, b.schemaVersion))
    (hmatch : ∀ x, matchFn end_ x = true ↔ key x = key end_)
    (hs : bt.Pairwise (fun a b => cmp a b = true))
    (hbound : ∀ x ∈ bt, key x = key end_ →
      x.schemaVersion < end_.schemaVersion) :
    search cmp bt V end_ matchFn = specLookup V (matchFn end_) bt ∧
    (∀ t, search cmp bt V end_ matchFn = some t →
      t ∈ bt ∧ matchFn end_ t = true ∧ t.schemaVersion ≤ V ∧ t.tomb = false ∧
        ∀ x ∈ bt, matchFn end_ x = true → x.schemaVersion ≤ V →
          x.schemaVersion ≤ t.schemaVersion) := by
  have hspec := search_spec key cmp matchFn end_ bt V hcmp hmatch hs hbound
  refine ⟨hspec, ?_⟩
  intro t ht
  rw [hspec] at ht
  unfold specLookup at ht
  set M := bt.filter (fun x => matchFn end_ x && decide (x.schemaVersion ≤ V))
    with hMdef
  have hMsort : M.Pairwise (fun a b => a.schemaVersion < b.schemaVersion) := by
    refine filter_match_pairwise key cmp (key end_) bt _ hcmp hs ?_
    intro x _ hx
    rw [Bool.and_eq_true] at hx
    exact (hmatch x).mp hx.1
  cases hlast : M.getLast? with
  | none => rw [hlast] at ht; cases ht
  | some u =>
    rw [hlast] at ht
    have ht' : (if u.tomb = true then none else some u) = some t := ht
    by_cases hu : u.tomb = true
    · rw [if_pos hu] at ht'; cases ht'
    · rw [if_neg hu, Option.some_inj] at ht'
      subst ht'
      have htM : u ∈ M := mem_of_getLast?_eq hlast
      have htf := List.mem_filter.mp htM
      rw [Bool.and_eq_true] at htf
      refine ⟨htf.1, htf.2.1, by simpa using htf.2.2, by simpa using hu, ?_⟩
      intro x hx hmx hvx
      exact getLast?_version_max M hMsort u hlast x
        (List.mem_filter.mpr ⟨hx, by rw [Bool.and_eq_true]; exact ⟨hmx, by simpa using hvx⟩⟩)

/-- Witness for C3: the characterization applied to a concrete by-id index,
where the lookup at snapshot version 7 selects the live version-5 entry. -/
theorem c3_search_versioned_lookup_witness :
    (search compareByID exByID 7 exSeed7 eqByTableID =
      specLookup 7 (eqByTableID exSeed7) exByID) ∧
    search compareByID exByID 7 exSeed7 eqByTableID =
      some ⟨"da", 1, "t1", 7, 5, false⟩ :=
  ⟨(c3_search_versioned_lookup (fun x => x.tableID) compareByID eqByTableID
      exSeed7 exByID 7 compareByID_lex (fun x => eqByTableID_iff exSeed7 x)
      (by decide) (by decide)).1,
   by decide⟩

/-! ## Claim C1 -/

/-- C1: after `Data.remove` writes a tomb entry for a table at version `V`,
every snapshot pinned at a version `W ≥ V` reports the table absent through
both `tableByID` and `TableByName`, and every snapshot pinned at `W < V`
reports the table exactly as it did before the removal.  Hypotheses: both
table indices are sorted, every entry of this table carries a version `≤ V`
(mutations arrive at strictly increasing versions), cached handles of this
table are older than `V` (version `V` is published only after the removal),
and the table is not in a special database. -/
theorem c1_remove_visibility (d : Data) (item : TableItem) (V : Int)
    (ts : Nat) (kv : KVStore) (noRefill : Bool) (schema tbl : CIStr)
    (hitem : item.schemaVersion = V) (hVmax : V < maxInt64)
    (hsID : d.byID.Pairwise (fun a b => compareByID a b = true))
    (hsName : d.byName.Pairwise (fun a b => compareByName a b = true))
    (hkeyID : ∀ x ∈ d.byID, x.tableID = item.tableID → x.schemaVersion ≤ V)
    (hkeyName : ∀ x ∈ d.byName, x.dbName = item.dbName →
      x.tableName = item.tableName → x.schemaVersion ≤ V)
    (hcache : ∀ e ∈ d.tableCache, e.key.tableID = item.tableID →
      e.key.schemaVersion < V)
    (hschema : schema.l = item.dbName) (htblname : tbl.l = item.tableName)
    (hspecial : IsSpecialDB item.dbName = false) :
    (∀ W, V ≤ W → W < maxInt64 →
      (tableByID (d.remove item) W ts kv item.tableID noRefill).1 = none ∧
      (TableByName (d.remove item) W ts kv schema tbl).1 = none) ∧
    (∀ W, W < V →
      (tableByID (d.remove item) W ts kv item.tableID noRefill).1 =
        (tableByID d W ts kv item.tableID noRefill).1 ∧
      (TableByName (d.remove item) W ts kv schema tbl).1 =
        (TableByName d W ts kv schema tbl).1) := by
  subst hitem
  have hbyID' : (d.remove item).byID =
    btreeSet compareByID { item with tomb := true } d.byID := rfl
  have hbyName' : (d.remove item).byName =
    btreeSet compareByName { item with tomb := true } d.byName := rfl
  have hspec' : (d.remove item).specials = d.specials := rfl
  have hcache' : (d.remove item).tableCache =
    sieveRemove d.tableCache ⟨item.tableID, item.schemaVersion⟩ := rfl
  have hsID' : ((d.remove item).byID).Pairwise
      (fun a b => compareByID a b = true) := by
    rw [hbyID']
    exact btreeSet_pairwise (fun y => toLex (y.tableID, y.schemaVersion))
      compareByID compareByID_lex _ _ hsID
  have hsName' : ((d.remove item).byName).Pairwise
      (fun a b => compareByName a b = true) := by
    rw [hbyName']
    exact btreeSet_pairwise
      (fun y => toLex ((toLex (y.dbName, y.tableName) : String ×ₗ String),
        y.schemaVersion))
      compareByName compareByName_lex _ _ hsName
  constructor
  · intro W hVW hWmax
    constructor
    · -- by-id lookup misses at W ≥ V
      rw [tableByID_fst_eq]
      cases hvalid : tableIDIsValid item.tableID
      · rfl
      · simp only [Bool.not_true, Bool.false_eq_true, if_false]
        have hfast : sieveLookup (d.remove item).tableCache
            ⟨item.tableID, W⟩ = none := by
          rw [hcache', sieveLookup_sieveRemove]
          by_cases hW : (⟨item.tableID, W⟩ : TableCacheKey) =
              ⟨item.tableID, item.schemaVersion⟩
          · rw [if_pos hW]
          · rw [if_neg hW]
            refine sieveLookup_eq_none _ _ ?_
            intro e he hek
            have h1 := hcache e he (by rw [hek])
            rw [hek] at h1
            exact absurd h1 (not_lt.mpr hVW)
        rw [hfast]
        have hsrch : search compareByID (d.remove item).byID W
            ⟨"", 0, "", item.tableID, maxInt64, false⟩ eqByTableID = none := by
          rw [hbyID']
          refine search_to_tomb (fun x => x.tableID) compareByID eqByTableID
            _ _ W { item with tomb := true } compareByID_lex
            (fun x => eqByTableID_iff _ x) hsID' ?hbound rfl
            (mem_btreeSet_self _ _ _) (by simp [eqByTableID]) hVW ?hmax
          case hbound =>
            intro y hy hk
            rcases mem_of_mem_btreeSet hy with rfl | hy'
            · exact hVmax
            · exact lt_of_le_of_lt (hkeyID y hy' hk) hVmax
          case hmax =>
            intro y hy hm
            rcases mem_of_mem_btreeSet hy with rfl | hy'
            · exact le_refl _
            · exact hkeyID y hy' ((eqByTableID_iff _ y).mp hm)
        rw [hsrch]
    · -- by-name lookup misses at W ≥ V
      rw [TableByName_fst_eq]
      rw [show IsSpecialDB schema.l = false from hschema ▸ hspecial]
      simp only [Bool.false_eq_true, if_false]
      have hsrch : search compareByName (d.remove item).byName W
          ⟨schema.l, 0, tbl.l, 0, maxInt64, false⟩ eqByDBAndTableName =
          none := by
        rw [hbyName']
        refine search_to_tomb
          (fun x => (toLex (x.dbName, x.tableName) : String ×ₗ String))
          compareByName eqByDBAndTableName _ _ W { item with tomb := true }
          compareByName_lex (fun x => eqByDBAndTableName_iff _ x) hsName'
          ?hbound rfl (mem_btreeSet_self _ _ _)
          (by simp [eqByDBAndTableName, hschema, htblname]) hVW ?hmax
        case hbound =>
          intro y hy hk
          have hk' : y.dbName = schema.l ∧ y.tableName = tbl.l := by
            have := toLex_inj.mp hk
            exact ⟨congrArg Prod.fst this, congrArg Prod.snd this⟩
          rcases mem_of_mem_btreeSet hy with rfl | hy'
          · exact hVmax
          · exact lt_of_le_of_lt
              (hkeyName y hy' (hschema ▸ hk'.1) (htblname ▸ hk'.2)) hVmax
        case hmax =>
          intro y hy hm
          have hk := (eqByDBAndTableName_iff _ y).mp hm
          have hk' : y.dbName = schema.l ∧ y.tableName = tbl.l := by
            have := toLex_inj.mp hk
            exact ⟨congrArg Prod.fst this, congrArg Prod.snd this⟩
          rcases mem_of_mem_btreeSet hy with rfl | hy'
          · exact le_refl _
          · exact hkeyName y hy' (hschema ▸ hk'.1) (htblname ▸ hk'.2)
      rw [hsrch]
  · intro W hWV
    have hcachekeep : ∀ k : TableCacheKey, k.schemaVersion ≤ W →
        sieveLookup (d.remove item).tableCache k =
          sieveLookup d.tableCache k := by
      intro k hk
      rw [hcache', sieveLookup_sieveRemove]
      have hne : k ≠ ⟨item.tableID, item.schemaVersion⟩ := by
        intro hc
        rw [hc] at hk
        exact absurd (lt_of_le_of_lt hk hWV) (lt_irrefl _)
      rw [if_neg hne]
    constructor
    · -- by-id lookup unchanged at W < V
      refine tableByID_fst_congr d (d.remove item) W ts kv item.tableID
        noRefill (hcachekeep ⟨item.tableID, W⟩ (le_refl _)) ?_ hspec' ?_
      · rw [hbyID']
        refine search_btreeSet_newer (fun x => x.tableID) compareByID
          eqByTableID _ _ d.byID W compareByID_lex
          (fun x => eqByTableID_iff _ x) hsID ?_ hWV hVmax
        intro y hy hk
        exact lt_of_le_of_lt (hkeyID y hy hk) hVmax
      · intro itm hitm
        rw [search_spec (fun x => x.tableID) compareByID eqByTableID
          ⟨"", 0, "", item.tableID, maxInt64, false⟩ d.byID W compareByID_lex
          (fun x => eqByTableID_iff _ x) hsID
          (fun y hy hk => lt_of_le_of_lt (hkeyID y hy hk) hVmax)] at hitm
        exact hcachekeep ⟨itm.tableID, itm.schemaVersion⟩
          (specLookup_some _ _ _ _ hitm).2.2.1
    · -- by-name lookup unchanged at W < V
      refine TableByName_fst_congr d (d.remove item) W ts kv schema tbl
        ?_ hspec' ?_
      · rw [hbyName']
        refine search_btreeSet_newer
          (fun x => (toLex (x.dbName, x.tableName) : String ×ₗ String))
          compareByName eqByDBAndTableName _ _ d.byName W compareByName_lex
          (fun x => eqByDBAndTableName_iff _ x) hsName ?_ hWV hVmax
        intro y hy hk
        have hk' : y.dbName = schema.l ∧ y.tableName = tbl.l := by
          have := toLex_inj.mp hk
          exact ⟨congrArg Prod.fst this, congrArg Prod.snd this⟩
        exact lt_of_le_of_lt
          (hkeyName y hy (hschema ▸ hk'.1) (htblname ▸ hk'.2)) hVmax
      · intro itm hitm
        rw [search_spec
          (fun x => (toLex (x.dbName, x.tableName) : String ×ₗ String))
          compareByName eqByDBAndTableName ⟨schema.l, 0, tbl.l, 0, maxInt64,
            false⟩ d.byName W compareByName_lex
          (fun x => eqByDBAndTableName_iff _ x) hsName ?hb] at hitm
        case hb =>
          intro y hy hk
          have hk' : y.dbName = schema.l ∧ y.tableName = tbl.l := by
            have := toLex_inj.mp hk
            exact ⟨congrArg Prod.fst this, congrArg Prod.snd this⟩
          exact lt_of_le_of_lt
            (hkeyName y hy (hschema ▸ hk'.1) (htblname ▸ hk'.2)) hVmax
        exact hcachekeep ⟨itm.tableID, itm.schemaVersion⟩
          (specLookup_some _ _ _ _ hitm).2.2.1

/-- Witness for C1: table 7 added at version 1 and removed at version 2 is
absent at snapshot 2 and unchanged at snapshot 1, through both lookups. -/
theorem c1_remove_visibility_witness :
    exC1Data.byID.Pairwise (fun a b => compareByID a b = true) ∧
    (tableByID (exC1Data.remove exC1Item) 2 5 exEmptyKV exC1Item.tableID
      false).1 = none ∧
    (TableByName (exC1Data.remove exC1Item) 2 5 exEmptyKV (newCIStr "da")
      (newCIStr "ta")).1 = none ∧
    (tableByID (exC1Data.remove exC1Item) 1 5 exEmptyKV exC1Item.tableID
      false).1 =
      (tableByID exC1Data 1 5 exEmptyKV exC1Item.tableID false).1 ∧
    (TableByName (exC1Data.remove exC1Item) 1 5 exEmptyKV (newCIStr "da")
      (newCIStr "ta")).1 =
      (TableByName exC1Data 1 5 exEmptyKV (newCIStr "da")
        (newCIStr "ta")).1 := by
  have h := c1_remove_visibility exC1Data exC1Item 2 5 exEmptyKV false
    (newCIStr "da") (newCIStr "ta") (by decide) (by decide) (by decide)
    (by decide) (by decide) (by decide) (by decide) (by decide) (by decide)
    (by decide)
  exact ⟨by decide, (h.1 2 (by decide) (by decide)).1,
    (h.1 2 (by decide) (by decide)).2, (h.2 1 (by decide)).1,
    (h.2 1 (by decide)).2⟩

/-! ## Claim C2 -/

theorem add_byID (d : Data) (i : TableItem) (t : TableInfoM) :
    (d.add i t).byID = btreeSet compareByID i d.byID := by
  cases hp : t.partitionInfo <;> cases hsp : hasSpecialAttributes t <;>
    simp [Data.add, hp, hsp]

theorem add_byName (d : Data) (i : TableItem) (t : TableInfoM) :
    (d.add i t).byName = btreeSet compareByName i d.byName := by
  cases hp : t.partitionInfo <;> cases hsp : hasSpecialAttributes t <;>
    simp [Data.add, hp, hsp]

theorem remove_byID (d : Data) (i : TableItem) :
    (d.remove i).byID = btreeSet compareByID { i with tomb := true } d.byID :=
  rfl

theorem remove_byName (d : Data) (i : TableItem) :
    (d.remove i).byName =
      btreeSet compareByName { i with tomb := true } d.byName := rfl

theorem applyOps_sorted (ops : List CatalogOp) (d : Data)
    (hID : d.byID.Pairwise (fun a b => compareByID a b = true))
    (hName : d.byName.Pairwise (fun a b => compareByName a b = true)) :
    ((applyOps d ops).byID.Pairwise (fun a b => compareByID a b = true)) ∧
      ((applyOps d ops).byName.Pairwise
        (fun a b => compareByName a b = true)) := by
  induction ops generalizing d with
  | nil => exact ⟨hID, hName⟩
  | cons op rest ih =>
    cases op with
    | addOp i t =>
      exact ih (d.add i t)
        (by rw [add_byID]
            exact btreeSet_pairwise
              (fun y => toLex (y.tableID, y.schemaVersion)) compareByID
              compareByID_lex _ _ hID)
        (by rw [add_byName]
            exact btreeSet_pairwise
              (fun y => toLex ((toLex (y.dbName, y.tableName) :
                String ×ₗ String), y.schemaVersion)) compareByName
              compareByName_lex _ _ hName)
    | removeOp i =>
      exact ih (d.remove i)
        (by rw [remove_byID]
            exact btreeSet_pairwise
              (fun y => toLex (y.tableID, y.schemaVersion)) compareByID
              compareByID_lex _ _ hID)
        (by rw [remove_byName]
            exact btreeSet_pairwise
              (fun y => toLex ((toLex (y.dbName, y.tableName) :
                String ×ₗ String), y.schemaVersion)) compareByName
              compareByName_lex _ _ hName)

theorem applyOps_byID_version (ops : List CatalogOp) (d : Data)
    (x : TableItem) (hx : x ∈ (applyOps d ops).byID) :
    x ∈ d.byID ∨ ∃ op ∈ ops,
      x.schemaVersion = (CatalogOp.item op).schemaVersion := by
  induction ops generalizing d with
  | nil => exact Or.inl hx
  | cons op rest ih =>
    cases op with
    | addOp i t =>
      rcases ih (d.add i t) hx with h | ⟨op', hop', hv⟩
      · rw [add_byID] at h
        rcases mem_of_mem_btreeSet h with h' | h'
        · exact Or.inr ⟨.addOp i t, List.mem_cons_self _ _,
            by rw [h']; rfl⟩
        · exact Or.inl h'
      · exact Or.inr ⟨op', List.mem_cons_of_mem _ hop', hv⟩
    | removeOp i =>
      rcases ih (d.remove i) hx with h | ⟨op', hop', hv⟩
      · rw [remove_byID] at h
        rcases mem_of_mem_btreeSet h with h' | h'
        · exact Or.inr ⟨.removeOp i, List.mem_cons_self _ _,
            by rw [h']; rfl⟩
        · exact Or.inl h'
      · exact Or.inr ⟨op', List.mem_cons_of_mem _ hop', hv⟩

theorem applyOps_byName_version (ops : List CatalogOp) (d : Data)
    (x : TableItem) (hx : x ∈ (applyOps d ops).byName) :
    x ∈ d.byName ∨ ∃ op ∈ ops,
      x.schemaVersion = (CatalogOp.item op).schemaVersion := by
  induction ops generalizing d with
  | nil => exact Or.inl hx
  | cons op rest ih =>
    cases op with
    | addOp i t =>
      rcases ih (d.add i t) hx with h | ⟨op', hop', hv⟩
      · rw [add_byName] at h
        rcases mem_of_mem_btreeSet h with h' | h'
        · exact Or.inr ⟨.addOp i t, List.mem_cons_self _ _,
            by rw [h']; rfl⟩
        · exact Or.inl h'
      · exact Or.inr ⟨op', List.mem_cons_of_mem _ hop', hv⟩
    | removeOp i =>
      rcases ih (d.remove i) hx with h | ⟨op', hop', hv⟩
      · rw [remove_byName] at h
        rcases mem_of_mem_btreeSet h with h' | h'
        · exact Or.inr ⟨.removeOp i, List.mem_cons_self _ _,
            by rw [h']; rfl⟩
        · exact Or.inl h'
      · exact Or.inr ⟨op', List.mem_cons_of_mem _ hop', hv⟩

theorem btreeSet_filter_agree (id : Int) (db tn : String) (i : TableItem)
    (hc : i.tableID = id ↔ (i.dbName = db ∧ i.tableName = tn))
    (bID bName : List TableItem)
    (hID : bID.Pairwise (fun a b => compareByID a b = true))
    (hName : bName.Pairwise (fun a b => compareByName a b = true))
    (hinv : bID.filter (eqByTableID ⟨"", 0, "", id, maxInt64, false⟩) =
      bName.filter (eqByDBAndTableName ⟨db, 0, tn, 0, maxInt64, false⟩)) :
    (btreeSet compareByID i bID).filter
        (eqByTableID ⟨"", 0, "", id, maxInt64, false⟩) =
      (btreeSet compareByName i bName).filter
        (eqByDBAndTableName ⟨db, 0, tn, 0, maxInt64, false⟩) := by
  by_cases hid : i.tableID = id
  · have hdb : i.dbName = db := (hc.mp hid).1
    have htn : i.tableName = tn := (hc.mp hid).2
    have hpID : ∀ y, eqByTableID ⟨"", 0, "", id, maxInt64, false⟩ y = true ↔
        y.tableID = i.tableID := by
      intro y
      rw [eqByTableID_iff]
      simp [hid]
    have hpName : ∀ y,
        eqByDBAndTableName ⟨db, 0, tn, 0, maxInt64, false⟩ y = true ↔
          (toLex (y.dbName, y.tableName) : String ×ₗ String) =
            toLex (i.dbName, i.tableName) := by
      intro y
      rw [eqByDBAndTableName_iff]
      simp [hdb, htn]
    rw [filter_btreeSet_key (fun y => y.tableID) (fun y => y.schemaVersion)
        compareByID compareByID_lex _ i bID hpID hID,
      filter_btreeSet_key
        (fun y => (toLex (y.dbName, y.tableName) : String ×ₗ String))
        (fun y => y.schemaVersion) compareByName compareByName_lex _ i bName
        hpName hName, hinv]
  · have hnot : ¬(i.dbName = db ∧ i.tableName = tn) :=
      fun hcontra => hid (hc.mpr hcontra)
    have hpIDf : eqByTableID ⟨"", 0, "", id, maxInt64, false⟩ i = false := by
      cases hb : eqByTableID ⟨"", 0, "", id, maxInt64, false⟩ i
      · rfl
      · exact absurd ((eqByTableID_iff _ i).mp hb) hid
    have hrankID : ∀ y,
        (toLex (y.tableID, y.schemaVersion) : Int ×ₗ Int) =
          toLex (i.tableID, i.schemaVersion) →
        eqByTableID ⟨"", 0, "", id, maxInt64, false⟩ y = false := by
      intro y hy
      have h1 : y.tableID = i.tableID :=
        congrArg Prod.fst (toLex_inj.mp hy)
      cases hb : eqByTableID ⟨"", 0, "", id, maxInt64, false⟩ y
      · rfl
      · have h2 := (eqByTableID_iff _ y).mp hb
        rw [h1] at h2
        exact absurd h2 hid
    have hpNamef :
        eqByDBAndTableName ⟨db, 0, tn, 0, maxInt64, false⟩ i = false := by
      cases hb : eqByDBAndTableName ⟨db, 0, tn, 0, maxInt64, false⟩ i
      · rfl
      · have h3 := toLex_inj.mp ((eqByDBAndTableName_iff _ i).mp hb)
        exact absurd ⟨congrArg Prod.fst h3, congrArg Prod.snd h3⟩ hnot
    have hrankName : ∀ y,
        (toLex ((toLex (y.dbName, y.tableName) : String ×ₗ String),
          y.schemaVersion) : (String ×ₗ String) ×ₗ Int) =
          toLex ((toLex (i.dbName, i.tableName) : String ×ₗ String),
            i.schemaVersion) →
        eqByDBAndTableName ⟨db, 0, tn, 0, maxInt64, false⟩ y = false := by
      intro y hy
      have hk : (toLex (y.dbName, y.tableName) : String ×ₗ String) =
          toLex (i.dbName, i.tableName) :=
        congrArg Prod.fst (toLex_inj.mp hy)
      cases hb : eqByDBAndTableName ⟨db, 0, tn, 0, maxInt64, false⟩ y
      · rfl
      · have h2 := (eqByDBAndTableName_iff _ y).mp hb
        rw [hk] at h2
        have h3 := toLex_inj.mp h2
        exact absurd ⟨congrArg Prod.fst h3, congrArg Prod.snd h3⟩ hnot
    rw [filter_btreeSet_of_not
        (fun y => toLex (y.tableID, y.schemaVersion)) compareByID
        compareByID_lex _ i bID hpIDf hrankID,
      filter_btreeSet_of_not
        (fun y => toLex ((toLex (y.dbName, y.tableName) : String ×ₗ String),
          y.schemaVersion)) compareByName compareByName_lex _ i bName
        hpNamef hrankName, hinv]

theorem applyOps_filter_agree (ops : List CatalogOp) (id : Int)
    (db tn : String) (d : Data)
    (hcons : ∀ op ∈ ops, ((CatalogOp.item op).tableID = id ↔
      ((CatalogOp.item op).dbName = db ∧ (CatalogOp.item op).tableName = tn)))
    (hID : d.byID.Pairwise (fun a b => compareByID a b = true))
    (hName : d.byName.Pairwise (fun a b => compareByName a b = true))
    (hinv : d.byID.filter (eqByTableID ⟨"", 0, "", id, maxInt64, false⟩) =
      d.byName.filter (eqByDBAndTableName ⟨db, 0, tn, 0, maxInt64, false⟩)) :
    (applyOps d ops).byID.filter
        (eqByTableID ⟨"", 0, "", id, maxInt64, false⟩) =
      (applyOps d ops).byName.filter
        (eqByDBAndTableName ⟨db, 0, tn, 0, maxInt64, false⟩) := by
  induction ops generalizing d with
  | nil => exact hinv
  | cons op rest ih =>
    cases op with
    | addOp i t =>
      refine ih (d.add i t)
        (fun op' hop' => hcons op' (List.mem_cons_of_mem _ hop')) ?_ ?_ ?_
      · rw [add_byID]
        exact btreeSet_pairwise (fun y => toLex (y.tableID, y.schemaVersion))
          compareByID compareByID_lex _ _ hID
      · rw [add_byName]
        exact btreeSet_pairwise
          (fun y => toLex ((toLex (y.dbName, y.tableName) : String ×ₗ String),
            y.schemaVersion)) compareByName compareByName_lex _ _ hName
      · rw [add_byID, add_byName]
        exact btreeSet_filter_agree id db tn i
          (hcons (.addOp i t) (List.mem_cons_self _ _)) d.byID d.byName
          hID hName hinv
    | removeOp i =>
      refine ih (d.remove i)
        (fun op' hop' => hcons op' (List.mem_cons_of_mem _ hop')) ?_ ?_ ?_
      · rw [remove_byID]
        exact btreeSet_pairwise (fun y => toLex (y.tableID, y.schemaVersion))
          compareByID compareByID_lex _ _ hID
      · rw [remove_byName]
        exact btreeSet_pairwise
          (fun y => toLex ((toLex (y.dbName, y.tableName) : String ×ₗ String),
            y.schemaVersion)) compareByName compareByName_lex _ _ hName
      · rw [remove_byID, remove_byName]
        exact btreeSet_filter_agree id db tn { i with tomb := true }
          (hcons (.removeOp i) (List.mem_cons_self _ _)) d.byID d.byName
          hID hName hinv

/-- Counterexample to C2 as stated: the mutation sequence `add (da.ta, id 7)
at version 1; add (da.ta, id 8) at version 2` has strictly increasing
versions, yet at snapshot version 2 the by-id lookup of table 7 still returns
table 7's handle while the by-name lookup of `da`.`ta` returns table 8's
handle: the two indices do not identify the same table entry.  The claim's
quantifier admits sequences that reuse a live name for a new table id, and
for those the indices diverge. -/
theorem c2_index_divergence_cex :
    (tableByID exC2Data 2 5 exEmptyKV 7 false).1 = some exC1Tbl ∧
    (TableByName exC2Data 2 5 exEmptyKV (newCIStr "da") (newCIStr "ta")).1 =
      some exC2Tbl8 ∧
    exC1Tbl.id ≠ exC2Tbl8.id := by decide

/-- C2 (amended): for every sequence of `add`/`remove` mutations whose items
are key-consistent for the table under scrutiny — an item carries its table
id exactly when it carries its qualified name, i.e. the name is not reused
by another id and the id never changes name — and whose schema versions are
below `maxInt64`, the versioned search of the by-id index and the versioned
search of the by-name index return the same result at every snapshot
version: same existence, same table entry.  (No ordering of the mutation
versions is needed.) -/
theorem c2_index_agreement (ops : List CatalogOp) (id : Int) (db tn : String)
    (V : Int)
    (hcons : ∀ op ∈ ops, ((CatalogOp.item op).tableID = id ↔
      ((CatalogOp.item op).dbName = db ∧ (CatalogOp.item op).tableName = tn)))
    (hver : ∀ op ∈ ops, (CatalogOp.item op).schemaVersion < maxInt64) :
    search compareByID (applyOps NewData ops).byID V
        ⟨"", 0, "", id, maxInt64, false⟩ eqByTableID =
      search compareByName (applyOps NewData ops).byName V
        ⟨db, 0, tn, 0, maxInt64, false⟩ eqByDBAndTableName := by
  have hsorted := applyOps_sorted ops NewData List.Pairwise.nil
    List.Pairwise.nil
  rw [search_spec (fun x => x.tableID) compareByID eqByTableID
    ⟨"", 0, "", id, maxInt64, false⟩ (applyOps NewData ops).byID V
    compareByID_lex (fun x => eqByTableID_iff _ x) hsorted.1 ?hbID]
  case hbID =>
    intro y hy hk
    rcases applyOps_byID_version ops NewData y hy with h | ⟨op, hop, hv⟩
    · exact absurd h (List.not_mem_nil y)
    · rw [hv]; exact hver op hop
  rw [search_spec
    (fun x => (toLex (x.dbName, x.tableName) : String ×ₗ String))
    compareByName eqByDBAndTableName ⟨db, 0, tn, 0, maxInt64, false⟩
    (applyOps NewData ops).byName V compareByName_lex
    (fun x => eqByDBAndTableName_iff _ x) hsorted.2 ?hbName]
  case hbName =>
    intro y hy hk
    rcases applyOps_byName_version ops NewData y hy with h | ⟨op, hop, hv⟩
    · exact absurd h (List.not_mem_nil y)
    · rw [hv]; exact hver op hop
  exact specLookup_filter_congr V _ _ _ _
    (applyOps_filter_agree ops id db tn NewData hcons List.Pairwise.nil
      List.Pairwise.nil rfl)

/-- Witness for C2 (amended): the key-consistent sequence `add table 7 at
version 1; remove table 7 at version 2`, queried at snapshot version 1,
yields the same result from both index searches. -/
theorem c2_index_agreement_witness :
    search compareByID (applyOps NewData exC2Ops).byID 1
        ⟨"", 0, "", 7, maxInt64, false⟩ eqByTableID =
      search compareByName (applyOps NewData exC2Ops).byName 1
        ⟨"da", 0, "ta", 0, maxInt64, false⟩ eqByDBAndTableName :=
  c2_index_agreement exC2Ops 7 "da" "ta" 1 (by decide) (by decide)

/-! ## Claim C10 -/

/-- C10: `Data.remove` deletes the cached table handle stored under the exact
key `(item.tableID, item.schemaVersion)` from the eviction cache and deletes
no other cache entry; in particular, handles cached under older schema
versions of the same table remain in the cache. -/
theorem c10_remove_cache_exact_key (d : Data) (item : TableItem)
    (k : TableCacheKey) :
    sieveLookup (d.remove item).tableCache k =
      if k = ⟨item.tableID, item.schemaVersion⟩ then none
      else sieveLookup d.tableCache k := by
  have h : (d.remove item).tableCache =
      sieveRemove d.tableCache ⟨item.tableID, item.schemaVersion⟩ := rfl
  rw [h, sieveLookup_sieveRemove]

/-! ## Claim C9 -/

/-- C9: for every id rejected by the table-id validity predicate, `tableByID`
returns `(nil, false)` immediately: the store is unchanged and the effect
trace is empty — no cache probe, no index search, no load from the metadata
store. -/
theorem c9_invalid_id_short_circuit (d : Data) (smv : Int) (ts : Nat)
    (kv : KVStore) (id : Int) (noRefill : Bool)
    (h : tableIDIsValid id = false) :
    tableByID d smv ts kv id noRefill = (none, d, []) := by
  unfold tableByID
  rw [h]
  rfl

/-- Witness for C9: id 0 is invalid and short-circuits. -/
theorem c9_invalid_id_short_circuit_witness :
    tableIDIsValid 0 = false ∧
    tableByID NewData 5 0 exEmptyKV 0 false = (none, NewData, []) :=
  ⟨rfl, c9_invalid_id_short_circuit NewData 5 0 exEmptyKV 0 false rfl⟩

/-! ## Claim C7 -/

theorem partitionTomb_preserved (V tid p : Int) (l : List PartitionItem)
    (hmem : (⟨p, V, tid, true⟩ : PartitionItem) ∈ l) (q : Int) :
    (⟨p, V, tid, true⟩ : PartitionItem) ∈
      btreeSet comparePartitionItem ⟨q, V, tid, true⟩ l := by
  by_cases hpq : q = p
  · subst hpq
    exact mem_btreeSet_self _ _ _
  · apply mem_btreeSet_of_mem hmem
    rcases lt_trichotomy q p with h | h | h
    · left; simp [comparePartitionItem, h]
    · exact absurd h hpq
    · right; simp [comparePartitionItem, h]

theorem partitionTomb_mem_foldl_preserved (defs : List PartitionDefM)
    (V tid p : Int) (l : List PartitionItem)
    (hmem : (⟨p, V, tid, true⟩ : PartitionItem) ∈ l) :
    (⟨p, V, tid, true⟩ : PartitionItem) ∈
      defs.foldl (fun acc (df : PartitionDefM) =>
        btreeSet comparePartitionItem ⟨df.id, V, tid, true⟩ acc) l := by
  induction defs generalizing l with
  | nil => exact hmem
  | cons a as ih => exact ih _ (partitionTomb_preserved V tid p l hmem a.id)

theorem partitionTomb_mem_foldl (defs : List PartitionDefM) (V tid : Int)
    (l : List PartitionItem) (df : PartitionDefM) (h : df ∈ defs) :
    (⟨df.id, V, tid, true⟩ : PartitionItem) ∈
      defs.foldl (fun acc (df : PartitionDefM) =>
        btreeSet comparePartitionItem ⟨df.id, V, tid, true⟩ acc) l := by
  induction defs generalizing l with
  | nil => cases h
  | cons a as ih =>
    rcases List.mem_cons.mp h with rfl | h'
    · exact partitionTomb_mem_foldl_preserved as V tid df.id _
        (mem_btreeSet_self _ _ _)
    · exact ih _ h'

/-- C7: `Data.remove` writes `tomb = true` entries to both table indices and
to the attribute index, and writes nothing to the partition index `pid2tid`;
partition tomb entries are written by the diff applier `applyDropTableV2`,
which writes one per partition definition of the dropped table at the diff's
version. -/
theorem c7_remove_and_drop_frame (d : Data) (item : TableItem) (smv : Int)
    (ts : Nat) (kv : KVStore) (diffVersion : Int) (dbInfo : DBInfoM)
    (tableID : Int) (tbl : TableInfoM) (defs : List PartitionDefM)
    (htbl : (tableByID d smv ts kv tableID false).1 = some tbl)
    (hpart : tbl.partitionInfo = some defs) :
    ({ item with tomb := true } ∈ (d.remove item).byID ∧
     { item with tomb := true } ∈ (d.remove item).byName ∧
     (⟨item.dbName, item.tableID, item.schemaVersion, none, true⟩ :
        TableInfoItem) ∈ (d.remove item).tableInfoResident ∧
     (d.remove item).pid2tid = d.pid2tid) ∧
    ∀ df ∈ defs, (⟨df.id, diffVersion, tbl.id, true⟩ : PartitionItem) ∈
      (applyDropTableV2 d smv ts kv diffVersion dbInfo tableID).pid2tid := by
  constructor
  · refine ⟨?_, ?_, ?_, rfl⟩
    · exact mem_btreeSet_self _ _ _
    · exact mem_btreeSet_self _ _ _
    · exact mem_btreeSet_self _ _ _
  · intro df hdf
    rcases hE : tableByID d smv ts kv tableID false with ⟨r, d₁, tr⟩
    rw [hE] at htbl
    simp only at htbl
    subst htbl
    unfold applyDropTableV2
    rw [hE]
    show (⟨df.id, diffVersion, tbl.id, true⟩ : PartitionItem) ∈
      (Data.remove _ _).pid2tid
    have hrm : ∀ d' i, (Data.remove d' i).pid2tid = d'.pid2tid := fun _ _ => rfl
    rw [hrm, hpart]
    exact partitionTomb_mem_foldl defs diffVersion tbl.id d₁.pid2tid df hdf

/-- Witness for C7: dropping the concrete partitioned table 11 writes its two
partition tombs, and a remove leaves the partition index unchanged. -/
theorem c7_remove_and_drop_frame_witness :
    ((⟨"x", 3, "pt", 11, 9, true⟩ : TableItem) ∈
        (exDataWithPart.remove ⟨"x", 3, "pt", 11, 9, false⟩).byID ∧
      (⟨100, 9, 11, true⟩ : PartitionItem) ∈
        (applyDropTableV2 exDataWithPart 4 0 exEmptyKV 9 exDB 11).pid2tid ∧
      (⟨200, 9, 11, true⟩ : PartitionItem) ∈
        (applyDropTableV2 exDataWithPart 4 0 exEmptyKV 9 exDB 11).pid2tid) ∧
    (tableByID exDataWithPart 4 0 exEmptyKV 11 false).1 = some exPartTbl := by
  have hload : (tableByID exDataWithPart 4 0 exEmptyKV 11 false).1 =
      some exPartTbl := by decide
  have h := c7_remove_and_drop_frame exDataWithPart
    ⟨"x", 3, "pt", 11, 9, false⟩ 4 0 exEmptyKV 9 exDB 11 exPartTbl
    [⟨100, false⟩, ⟨200, false⟩] hload rfl
  exact ⟨⟨h.1.1, h.2 ⟨100, false⟩ (by decide), h.2 ⟨200, false⟩ (by decide)⟩,
    hload⟩

/-! ## Claim C8 -/

/-- C8: applying a RecoverSchema diff when the target database is currently
visible fails with a `DatabaseExists` error and leaves the catalog store
unchanged; only when the database is not visible does the applier call
`addDB` at the diff's version and then create the tables. -/
theorem c8_recover_schema (d : Data) (smv : Int)
    (getDatabase : Int → Except GoErr DBInfoM)
    (createTables : Data → Except GoErr (List Int) × Data)
    (diffSchemaID diffVersion : Int) :
    (∀ di, SchemaByID d smv diffSchemaID = some di →
      applyRecoverSchemaV2 d smv getDatabase createTables diffSchemaID
        diffVersion = (Except.error (GoErr.databaseExists di.id), d)) ∧
    (∀ di, SchemaByID d smv diffSchemaID = none →
      getDatabase diffSchemaID = Except.ok di →
      applyRecoverSchemaV2 d smv getDatabase createTables diffSchemaID
        diffVersion = createTables (d.addDB diffVersion di)) := by
  constructor
  · intro di h
    unfold applyRecoverSchemaV2
    rw [h]
  · intro di h hg
    unfold applyRecoverSchemaV2
    rw [h, hg]

/-- Witness for C8: recovering schema 3 into `exDataWithDB` (where it is
visible) errors and leaves the store unchanged; recovering it into the empty
store adds the database and proceeds to table creation. -/
theorem c8_recover_schema_witness :
    SchemaByID exDataWithDB 1 3 = some exDB ∧
    applyRecoverSchemaV2 exDataWithDB 1 exGetDatabase exCreateTables 3 2 =
      (Except.error (GoErr.databaseExists 3), exDataWithDB) ∧
    SchemaByID NewData 1 3 = none ∧
    applyRecoverSchemaV2 NewData 1 exGetDatabase exCreateTables 3 2 =
      exCreateTables (NewData.addDB 2 exDB) :=
  ⟨by decide,
   (c8_recover_schema exDataWithDB 1 exGetDatabase exCreateTables 3 2).1
     exDB (by decide),
   by decide,
   (c8_recover_schema NewData 1 exGetDatabase exCreateTables 3 2).2
     exDB (by decide) rfl⟩

/-! ## Claim C5 -/

/-- C5: FALSIFIED on the code — the claim that
`ListTablesWithSpecialAttribute` returns exactly the visible filtered tables
fails at `exRenameData` (TTL table 5 renamed from `dbb` to `dba` at
version 9).  At snapshot version 9 the listing is empty, although the
attribute index is correctly sorted and its `dba` entry for table 5 is the
latest entry `≤ 9` of its `(dbName, tableID)` group, non-tomb and accepted by
the TTL filter: the reverse traversal's dedup skips the live `dba` entry
because the immediately preceding `dbb` tomb carries the same `tableID`. -/
theorem c5_list_tables_drops_visible_table :
    ListTablesWithSpecialAttribute exRenameData 9 TTLAttribute = [] ∧
    exRenameData.tableInfoResident.Pairwise
      (fun a b => compareTableInfoItem a b = true) ∧
    (∃ e ∈ exRenameData.tableInfoResident, e.dbName = "dba" ∧ e.tableID = 5 ∧
      e.tomb = false ∧ e.schemaVersion ≤ 9 ∧ e.tableInfo = some exTTLTbl ∧
      TTLAttribute exTTLTbl = true ∧
      ∀ e' ∈ exRenameData.tableInfoResident, e'.dbName = "dba" →
        e'.tableID = 5 → e'.schemaVersion ≤ 9 →
          e'.schemaVersion ≤ e.schemaVersion) := by
  decide

/-! ## Claim C6 -/

/-- Counterexample for C6 as stated ("for all log states"): on the unsorted
log `[(1,100), (9,80), (8,50)]` the lookup is not monotone in the timestamp:
at ts 60 it returns version 8, at ts 100 it returns version 1. -/
theorem c6_monotonicity_cex :
    (60 : Nat) ≤ 100 ∧
    getVersionByTS exUnsortedLog 60 = (8, true) ∧
    getVersionByTS exUnsortedLog 100 = (1, true) ∧
    ¬((getVersionByTS exUnsortedLog 60).1 ≤
        (getVersionByTS exUnsortedLog 100).1) := by
  decide

theorem usableAt_mono (ts1 ts2 : Nat) (h : ts1 ≤ ts2)
    (x : VersionAndTimestamp)
    (hx : (!(x.timestamp == 0 || decide (ts1 < x.timestamp))) = true) :
    (!(x.timestamp == 0 || decide (ts2 < x.timestamp))) = true := by
  simp only [Bool.not_eq_true', Bool.or_eq_false_iff, beq_eq_false_iff_ne,
    decide_eq_false_iff_not, not_lt] at hx ⊢
  exact ⟨hx.1, le_trans hx.2 h⟩

theorem getVersionGo_ok (ts : Nat) (prev : VersionAndTimestamp)
    (l : List VersionAndTimestamp) (v : Int)
    (h : getVersionGo ts prev l = (v, true)) :
    ∃ vt, l.find?
        (fun u => !(u.timestamp == 0 || decide (ts < u.timestamp))) = some vt ∧
      v = vt.schemaVersion := by
  induction l generalizing prev with
  | nil => cases h
  | cons vt rest ih =>
    rw [getVersionGo] at h
    by_cases hskip : (vt.timestamp == 0 || decide (ts < vt.timestamp)) = true
    · rw [if_pos hskip] at h
      obtain ⟨u, hu, hv⟩ := ih vt h
      exact ⟨u, by rw [List.find?_cons_of_neg _ (by simp [hskip])]; exact hu,
        hv⟩
    · rw [if_neg hskip] at h
      refine ⟨vt, List.find?_cons_of_pos _ (by simpa using hskip), ?_⟩
      by_cases hchk : (prev.schemaVersion == vt.schemaVersion + 1 &&
          decide (prev.timestamp > ts)) = true
      · rw [if_pos hchk] at h
        exact (congrArg Prod.fst h).symm
      · rw [if_neg hchk] at h
        cases h

theorem getVersionByTS_ok (vts : List VersionAndTimestamp) (ts : Nat) (v : Int)
    (h : getVersionByTS vts ts = (v, true)) :
    ∃ vt, vts.find?
        (fun u => !(u.timestamp == 0 || decide (ts < u.timestamp))) = some vt ∧
      v = vt.schemaVersion := by
  cases vts with
  | nil => cases h
  | cons vt rest =>
    rw [getVersionByTS] at h
    by_cases hskip : (vt.timestamp == 0 || decide (ts < vt.timestamp)) = true
    · rw [if_pos hskip] at h
      obtain ⟨u, hu, hv⟩ := getVersionGo_ok ts vt rest v h
      exact ⟨u, by rw [List.find?_cons_of_neg _ (by simp [hskip])]; exact hu,
        hv⟩
    · rw [if_neg hskip] at h
      refine ⟨vt, List.find?_cons_of_pos _ (by simpa using hskip), ?_⟩
      cases h
      rfl

theorem find?_usable_mono_version (vts : List VersionAndTimestamp)
    (ts1 ts2 : Nat) (hts : ts1 ≤ ts2)
    (hsort : vts.Pairwise (fun a b => b.schemaVersion < a.schemaVersion))
    (w u : VersionAndTimestamp)
    (hw : vts.find?
      (fun x => !(x.timestamp == 0 || decide (ts1 < x.timestamp))) = some w)
    (hu : vts.find?
      (fun x => !(x.timestamp == 0 || decide (ts2 < x.timestamp))) = some u) :
    w.schemaVersion ≤ u.schemaVersion := by
  induction vts with
  | nil => cases hw
  | cons x xs ih =>
    rcases List.pairwise_cons.mp hsort with ⟨hx, hxs⟩
    cases hp2 : (!(x.timestamp == 0 || decide (ts2 < x.timestamp))) with
    | false =>
      have hp1 : (!(x.timestamp == 0 || decide (ts1 < x.timestamp))) = false := by
        cases hp1c : (!(x.timestamp == 0 || decide (ts1 < x.timestamp)))
        · rfl
        · rw [usableAt_mono ts1 ts2 hts x hp1c] at hp2; cases hp2
      simp only [List.find?_cons, hp1] at hw
      simp only [List.find?_cons, hp2] at hu
      exact ih hxs hw hu
    | true =>
      simp only [List.find?_cons, hp2] at hu
      rw [Option.some_inj] at hu
      subst hu
      cases hp1 : (!(x.timestamp == 0 || decide (ts1 < x.timestamp)))
      · simp only [List.find?_cons, hp1] at hw
        exact le_of_lt (hx w (List.mem_of_find?_eq_some hw))
      · simp only [List.find?_cons, hp1] at hw
        rw [Option.some_inj] at hw
        subst hw
        exact le_refl _

/-- C6 amended: `getVersionByTS` is monotone in the timestamp on every log
state whose schema versions are strictly decreasing (the log invariant of the
data model); for arbitrary log states the claim fails
(`c6_monotonicity_cex`). -/
theorem c6_get_version_by_ts_monotone (vts : List VersionAndTimestamp)
    (hsort : vts.Pairwise (fun a b => b.schemaVersion < a.schemaVersion))
    (ts1 ts2 : Nat) (hts : ts1 ≤ ts2) (v1 v2 : Int)
    (h1 : getVersionByTS vts ts1 = (v1, true))
    (h2 : getVersionByTS vts ts2 = (v2, true)) : v1 ≤ v2 := by
  obtain ⟨w, hw, rfl⟩ := getVersionByTS_ok vts ts1 v1 h1
  obtain ⟨u, hu, rfl⟩ := getVersionByTS_ok vts ts2 v2 h2
  exact find?_usable_mono_version vts ts1 ts2 hts hsort w u hw hu

/-- Witness for the amended C6 on a sorted log. -/
theorem c6_get_version_by_ts_monotone_witness :
    getVersionByTS exSortedLog 40 = (8, true) ∧
    getVersionByTS exSortedLog 100 = (10, true) ∧
    (8 : Int) ≤ 10 :=
  ⟨by decide, by decide,
   c6_get_version_by_ts_monotone exSortedLog (by decide) 40 100 (by decide)
     8 10 (by decide) (by decide)⟩

/-! ## Claim C4 -/

theorem getVersionGo_snd_false (ts : Nat) (prev : VersionAndTimestamp)
    (l : List VersionAndTimestamp)
    (h : (getVersionGo ts prev l).2 = false) :
    getVersionGo ts prev l = (0, false) := by
  induction l generalizing prev with
  | nil => rfl
  | cons vt rest ih =>
    rw [getVersionGo] at h ⊢
    by_cases hskip : (vt.timestamp == 0 || decide (ts < vt.timestamp)) = true
    · rw [if_pos hskip] at h ⊢
      exact ih vt h
    · rw [if_neg hskip] at h ⊢
      by_cases hchk : (prev.schemaVersion == vt.schemaVersion + 1 &&
          decide (prev.timestamp > ts)) = true
      · rw [if_pos hchk] at h
        simp at h
      · rw [if_neg hchk]

theorem getVersionGo_iff (ts : Nat) (l : List VersionAndTimestamp)
    (prev : VersionAndTimestamp)
    (hver : (prev :: l).Pairwise
      (fun a b => b.schemaVersion < a.schemaVersion))
    (hts : (prev :: l).Pairwise (fun a b =>
      a.timestamp ≠ 0 → b.timestamp ≠ 0 → b.timestamp ≤ a.timestamp))
    (hprev : prev.timestamp = 0 ∨ ts < prev.timestamp) (V : Int) :
    getVersionGo ts prev l = (V, true) ↔
      ∃ vt ∈ l, vt.schemaVersion = V ∧ vt.timestamp ≠ 0 ∧ vt.timestamp ≤ ts ∧
        ∃ u ∈ prev :: l, u.schemaVersion = V + 1 ∧ ts < u.timestamp := by
  induction l generalizing prev with
  | nil =>
    constructor
    · intro h; cases h
    · rintro ⟨vt, hvt, -⟩; cases hvt
  | cons vt rest ih =>
    rcases List.pairwise_cons.mp hver with ⟨hverp, hver'⟩
    rcases List.pairwise_cons.mp hver' with ⟨hvervt, _⟩
    rcases List.pairwise_cons.mp hts with ⟨htsp, hts'⟩
    rcases List.pairwise_cons.mp hts' with ⟨htsvt, _⟩
    rw [getVersionGo]
    by_cases hskip : (vt.timestamp == 0 || decide (ts < vt.timestamp)) = true
    · have hskipP : vt.timestamp = 0 ∨ ts < vt.timestamp := by
        simpa using hskip
      rw [if_pos hskip, ih vt hver' hts' hskipP]
      constructor
      · rintro ⟨vt', hvt', h1, h2, h3, u, hu, h4, h5⟩
        refine ⟨vt', by simp [hvt'], h1, h2, h3, u, ?_, h4, h5⟩
        rcases List.mem_cons.mp hu with rfl | hu'
        · simp
        · simp [hu']
      · rintro ⟨vt', hvt', h1, h2, h3, u, hu, h4, h5⟩
        have hvt'r : vt' ∈ rest := by
          rcases List.mem_cons.mp hvt' with rfl | h'
          · rcases hskipP with hz | hlt
            · exact absurd hz h2
            · exact absurd h3 (not_le.mpr hlt)
          · exact h'
        refine ⟨vt', hvt'r, h1, h2, h3, u, ?_, h4, h5⟩
        rcases List.mem_cons.mp hu with rfl | hu'
        · have hx1 : vt.schemaVersion < u.schemaVersion := hverp vt (by simp)
          have hx2 : vt'.schemaVersion < vt.schemaVersion := hvervt vt' hvt'r
          omega
        · exact hu'
    · have hnz : vt.timestamp ≠ 0 ∧ vt.timestamp ≤ ts := by
        have := hskip
        simp only [Bool.or_eq_true, beq_iff_eq, decide_eq_true_eq,
          not_or, not_lt] at this
        exact this
      rw [if_neg hskip]
      have hurestrule : ∀ u, u ∈ vt :: rest → u.schemaVersion = V + 1 →
          ts < u.timestamp → False ∨ u = vt ∨ u ∈ rest := by
        intro u hu _ _; exact Or.inr (List.mem_cons.mp hu)
      by_cases hchk : (prev.schemaVersion == vt.schemaVersion + 1 &&
          decide (prev.timestamp > ts)) = true
      · rw [if_pos hchk]
        have hchkP : prev.schemaVersion = vt.schemaVersion + 1 ∧
            ts < prev.timestamp := by
          simpa [Bool.and_eq_true, beq_iff_eq] using hchk
        constructor
        · intro h
          have hV : V = vt.schemaVersion := (congrArg Prod.fst h).symm
          subst hV
          exact ⟨vt, by simp, rfl, hnz.1, hnz.2, prev, by simp,
            hchkP.1, hchkP.2⟩
        · rintro ⟨vt', hvt', h1, h2, h3, u, hu, h4, h5⟩
          have huprev : u = prev := by
            rcases List.mem_cons.mp hu with rfl | hu'
            · rfl
            · rcases List.mem_cons.mp hu' with rfl | hu''
              · exact absurd hnz.2 (not_le.mpr h5)
              · have h6 : u.timestamp ≤ vt.timestamp :=
                  htsvt u hu'' hnz.1 (by omega)
                omega
          subst huprev
          have hV : V = vt.schemaVersion := by
            rcases List.mem_cons.mp hvt' with rfl | hvt''
            · exact h1.symm
            · have h7 : vt'.schemaVersion < vt.schemaVersion := hvervt vt' hvt''
              omega
          rw [hV]
      · rw [if_neg hchk]
        have hchkN : ¬(prev.schemaVersion = vt.schemaVersion + 1 ∧
            ts < prev.timestamp) := by
          intro hc
          exact hchk (by simp [Bool.and_eq_true, beq_iff_eq, hc.1, hc.2])
        constructor
        · intro h; cases h
        · rintro ⟨vt', hvt', h1, h2, h3, u, hu, h4, h5⟩
          exfalso
          have huprev : u = prev := by
            rcases List.mem_cons.mp hu with rfl | hu'
            · rfl
            · rcases List.mem_cons.mp hu' with rfl | hu''
              · exact absurd hnz.2 (not_le.mpr h5)
              · have h6 : u.timestamp ≤ vt.timestamp :=
                  htsvt u hu'' hnz.1 (by omega)
                omega
          subst huprev
          rcases List.mem_cons.mp hvt' with rfl | hvt''
          · exact hchkN ⟨by omega, h5⟩
          · have h7 : vt'.schemaVersion < vt.schemaVersion := hvervt vt' hvt''
            have h8 : vt.schemaVersion < u.schemaVersion := hverp vt (by simp)
            omega

/-- C4: `getVersionByTS` returns `(V, true)` exactly when the
version-timestamp log (well formed: schema versions strictly decreasing,
nonzero timestamps non-increasing) contains a record for `V` with a nonzero
timestamp `≤ ts`, and either `V` is the newest recorded version or the log
records version `V + 1` with a timestamp `> ts` (the containing interval is
found); records with timestamp 0 are skipped; in all other cases it returns
`(0, false)`. -/
theorem c4_get_version_by_ts (vts : List VersionAndTimestamp) (ts : Nat)
    (hver : vts.Pairwise (fun a b => b.schemaVersion < a.schemaVersion))
    (hts : vts.Pairwise (fun a b =>
      a.timestamp ≠ 0 → b.timestamp ≠ 0 → b.timestamp ≤ a.timestamp)) :
    (∀ V : Int, getVersionByTS vts ts = (V, true) ↔
      ∃ vt ∈ vts, vt.schemaVersion = V ∧ vt.timestamp ≠ 0 ∧
        vt.timestamp ≤ ts ∧
        ((∀ u ∈ vts, u.schemaVersion ≤ V) ∨
          ∃ u ∈ vts, u.schemaVersion = V + 1 ∧ ts < u.timestamp)) ∧
    ((getVersionByTS vts ts).2 = false → getVersionByTS vts ts = (0, false)) := by
  constructor
  · intro V
    cases vts with
    | nil =>
      constructor
      · intro h; cases h
      · rintro ⟨vt, hvt, -⟩; cases hvt
    | cons vt rest =>
      rcases List.pairwise_cons.mp hver with ⟨hverp, hver'⟩
      rcases List.pairwise_cons.mp hts with ⟨htsp, hts'⟩
      rw [getVersionByTS]
      by_cases hskip : (vt.timestamp == 0 || decide (ts < vt.timestamp)) = true
      · have hskipP : vt.timestamp = 0 ∨ ts < vt.timestamp := by
          simpa using hskip
        rw [if_pos hskip,
          getVersionGo_iff ts rest vt hver hts hskipP V]
        constructor
        · rintro ⟨vt', hvt', h1, h2, h3, u, hu, h4, h5⟩
          exact ⟨vt', by simp [hvt'], h1, h2, h3, Or.inr ⟨u, hu, h4, h5⟩⟩
        · rintro ⟨vt', hvt', h1, h2, h3, hdisj⟩
          have hvt'r : vt' ∈ rest := by
            rcases List.mem_cons.mp hvt' with rfl | h'
            · rcases hskipP with hz | hlt
              · exact absurd hz h2
              · exact absurd h3 (not_le.mpr hlt)
            · exact h'
          rcases hdisj with hleft | ⟨u, hu, h4, h5⟩
          · exfalso
            have h6 : vt.schemaVersion ≤ V := hleft vt (by simp)
            have h7 : vt'.schemaVersion < vt.schemaVersion := hverp vt' hvt'r
            omega
          · exact ⟨vt', hvt'r, h1, h2, h3, u, hu, h4, h5⟩
      · have hnz : vt.timestamp ≠ 0 ∧ vt.timestamp ≤ ts := by
          have := hskip
          simp only [Bool.or_eq_true, beq_iff_eq, decide_eq_true_eq,
            not_or, not_lt] at this
          exact this
        rw [if_neg hskip]
        constructor
        · intro h
          have hV : V = vt.schemaVersion := (congrArg Prod.fst h).symm
          subst hV
          refine ⟨vt, by simp, rfl, hnz.1, hnz.2, Or.inl ?_⟩
          intro u hu
          rcases List.mem_cons.mp hu with rfl | hu'
          · exact le_refl _
          · exact le_of_lt (hverp u hu')
        · rintro ⟨vt', hvt', h1, h2, h3, hdisj⟩
          have hV : vt'.schemaVersion = vt.schemaVersion → V = vt.schemaVersion := by
            intro h'; omega
          rcases hdisj with hleft | ⟨u, hu, h4, h5⟩
          · have h6 : vt.schemaVersion ≤ V := hleft vt (by simp)
            rcases List.mem_cons.mp hvt' with rfl | hvt''
            · rw [h1]
            · have h7 : vt'.schemaVersion < vt.schemaVersion := hverp vt' hvt''
              omega
          · exfalso
            rcases List.mem_cons.mp hu with rfl | hu'
            · exact absurd hnz.2 (not_le.mpr h5)
            · have h6 : u.timestamp ≤ vt.timestamp :=
                htsp u hu' hnz.1 (by omega)
              omega
  · intro h
    cases vts with
    | nil => rfl
    | cons vt rest =>
      rw [getVersionByTS] at h ⊢
      by_cases hskip : (vt.timestamp == 0 || decide (ts < vt.timestamp)) = true
      · rw [if_pos hskip] at h ⊢
        exact getVersionGo_snd_false ts vt rest h
      · rw [if_neg hskip] at h
        simp at h

/-- Witness for C4 on a concrete well-formed log: the containing interval of
ts 40 is version 8, and ts 20 (below every timestamp) yields `(0, false)`. -/
theorem c4_get_version_by_ts_witness :
    getVersionByTS exSortedLog 40 = (8, true) ∧
    (∃ vt ∈ exSortedLog, vt.schemaVersion = 8 ∧ vt.timestamp ≠ 0 ∧
      vt.timestamp ≤ 40 ∧
      ((∀ u ∈ exSortedLog, u.schemaVersion ≤ 8) ∨
        ∃ u ∈ exSortedLog, u.schemaVersion = 8 + 1 ∧ 40 < u.timestamp)) ∧
    getVersionByTS exSortedLog 20 = (0, false) :=
  ⟨by decide,
   ((c4_get_version_by_ts exSortedLog 40 (by decide) (by decide)).1 8).mp
     (by decide),
   (c4_get_version_by_ts exSortedLog 20 (by decide) (by decide)).2 (by decide)⟩

end InfoschemaV2
